import Mathlib

/-!
Shallow embedding of the mcpflare MCP Guard core, translated from the
TypeScript sources:

* `src/utils/errors.ts` — MCP Guard settings, security configs, and the
  projection to worker isolation configurations.
* `src/server/schema-converter.ts` — `SchemaConverter` (tool JSON Schema to
  TypeScript interface text) and `MetricsCollector`.
* `vscode-extension/src/extension/config-loader.ts` — IDE configuration
  loading and deduplication.

TypeScript numbers are modelled as `Rat`; JS `Map` objects are modelled as
association lists with JS `Map.set` semantics (update in place, append when
absent).  File-system access in `loadSettings` is modelled by an explicit
`SettingsFile` state (absent / unparseable / parsed document).
-/

namespace MCPFlare

/-- Network access configuration (`NetworkConfig` in errors.ts). -/
structure NetworkConfig where
  enabled : Bool
  allowlist : List String
  allowLocalhost : Bool
deriving DecidableEq, Repr

/-- File system access configuration (`FileSystemConfig` in errors.ts). -/
structure FileSystemConfig where
  enabled : Bool
  readPaths : List String
  writePaths : List String
deriving DecidableEq, Repr

/-- Resource limits configuration (`ResourceLimits` in errors.ts). -/
structure ResourceLimits where
  maxExecutionTimeMs : Rat
  maxMemoryMB : Rat
  maxMCPCalls : Rat
deriving DecidableEq, Repr

/-- Security configuration for an MCP server (`MCPSecurityConfig`). -/
structure MCPSecurityConfig where
  id : String
  mcpName : String
  isGuarded : Bool
  network : NetworkConfig
  fileSystem : FileSystemConfig
  resourceLimits : ResourceLimits
  lastModified : String
deriving DecidableEq, Repr

/-- The `defaults` component of the global settings
(`Omit<MCPSecurityConfig, 'id' | 'mcpName' | 'isGuarded' | 'lastModified'>`). -/
structure SecurityDefaults where
  network : NetworkConfig
  fileSystem : FileSystemConfig
  resourceLimits : ResourceLimits
deriving DecidableEq, Repr

/-- Global MCP Guard settings (`MCPGuardSettings`). -/
structure MCPGuardSettings where
  enabled : Bool
  defaults : SecurityDefaults
  mcpConfigs : List MCPSecurityConfig
deriving DecidableEq, Repr

/-- Outbound part of a worker isolation configuration. -/
structure OutboundConfig where
  allowedHosts : Option (List String)
  allowLocalhost : Bool
deriving DecidableEq, Repr

/-- Limits part of a worker isolation configuration. -/
structure WorkerLimits where
  cpuMs : Rat
  memoryMB : Rat
  subrequests : Rat
deriving DecidableEq, Repr

/-- Worker isolation configuration for runtime use (`WorkerIsolationConfig`). -/
structure WorkerIsolationConfig where
  mcpName : String
  isGuarded : Bool
  outbound : OutboundConfig
  fileSystem : FileSystemConfig
  limits : WorkerLimits
deriving DecidableEq, Repr

/-- `DEFAULT_SECURITY_CONFIG` from errors.ts. -/
def DEFAULT_SECURITY_CONFIG : SecurityDefaults :=
  { network := { enabled := false, allowlist := [], allowLocalhost := false }
    fileSystem := { enabled := false, readPaths := [], writePaths := [] }
    resourceLimits :=
      { maxExecutionTimeMs := 30000, maxMemoryMB := 128, maxMCPCalls := 100 } }

/-- `DEFAULT_SETTINGS` from errors.ts. -/
def DEFAULT_SETTINGS : MCPGuardSettings :=
  { enabled := true, defaults := DEFAULT_SECURITY_CONFIG, mcpConfigs := [] }

/-- State of the persisted settings file, as observed by `loadSettings`:
the file may be missing, may fail to read or parse, or may hold a parsed
settings document. -/
inductive SettingsFile where
  | absent : SettingsFile
  | unparseable : SettingsFile
  | parsed : MCPGuardSettings → SettingsFile
deriving DecidableEq, Repr

/-- `loadSettings` from errors.ts: returns the defaults when the settings
file does not exist or cannot be read/parsed, and the parsed document
otherwise. -/
def loadSettings : SettingsFile → MCPGuardSettings
  | .absent => DEFAULT_SETTINGS
  | .unparseable => DEFAULT_SETTINGS
  | .parsed s => s

/-- `toWorkerIsolationConfig` from errors.ts. -/
def toWorkerIsolationConfig (config : MCPSecurityConfig) : WorkerIsolationConfig :=
  { mcpName := config.mcpName
    isGuarded := config.isGuarded
    outbound :=
      { allowedHosts :=
          if config.network.enabled = true ∧ 0 < config.network.allowlist.length then
            some config.network.allowlist
          else
            none
        allowLocalhost := config.network.enabled && config.network.allowLocalhost }
    fileSystem :=
      { enabled := config.fileSystem.enabled
        readPaths := config.fileSystem.readPaths
        writePaths := config.fileSystem.writePaths }
    limits :=
      { cpuMs := config.resourceLimits.maxExecutionTimeMs
        memoryMB := config.resourceLimits.maxMemoryMB
        subrequests := config.resourceLimits.maxMCPCalls } }

/-- `getIsolationConfigForMCP` from errors.ts, over an explicit settings
file state. -/
def getIsolationConfigForMCP (file : SettingsFile) (mcpName : String) :
    Option WorkerIsolationConfig :=
  let settings := loadSettings file
  if settings.enabled = false then
    none
  else
    match settings.mcpConfigs.find? (fun c => c.mcpName == mcpName) with
    | none => none
    | some config =>
        if config.isGuarded = false then none
        else some (toWorkerIsolationConfig config)

/-- Association-list model of a JS `Map`: `set` updates the value in place
when the key is present (preserving insertion order) and appends otherwise. -/
def mapSet {α : Type} (m : List (String × α)) (k : String) (v : α) :
    List (String × α) :=
  match m with
  | [] => [(k, v)]
  | (k', v') :: rest =>
      if k' = k then (k, v) :: rest else (k', v') :: mapSet rest k v

/-- Association-list model of JS `Map.get` (first entry with the key; the
`mapSet` discipline keeps keys unique). -/
def mapLookup {α : Type} : List (String × α) → String → Option α
  | [], _ => none
  | (k', v) :: rest, k => if k' = k then some v else mapLookup rest k

/-- `getAllGuardedMCPs` from errors.ts, over an explicit settings file
state. -/
def getAllGuardedMCPs (file : SettingsFile) : List (String × WorkerIsolationConfig) :=
  let settings := loadSettings file
  if settings.enabled = false then
    []
  else
    settings.mcpConfigs.foldl
      (fun configs config =>
        if config.isGuarded then
          mapSet configs config.mcpName (toWorkerIsolationConfig config)
        else
          configs)
      []

/-- `isMCPGuarded` from errors.ts, over an explicit settings file state. -/
def isMCPGuarded (file : SettingsFile) (mcpName : String) : Bool :=
  let settings := loadSettings file
  if settings.enabled = false then
    false
  else
    match settings.mcpConfigs.find? (fun c => c.mcpName == mcpName) with
    | some config => config.isGuarded
    | none => false

/-- Execution counters of the `MetricsCollector` (`ExecutionMetrics`). -/
structure ExecutionMetrics where
  total_executions : Nat
  successful_executions : Nat
  failed_executions : Nat
  total_execution_time_ms : Rat
  average_execution_time_ms : Rat
  total_mcp_calls : Rat
deriving DecidableEq, Repr

/-- Per-MCP metrics record (`MCPMetrics`). -/
structure MCPMetrics where
  mcp_id : String
  load_time_ms : Rat
  executions : ExecutionMetrics
deriving DecidableEq, Repr

/-- The zeroed execution counters used when initializing metrics. -/
def emptyExecutionMetrics : ExecutionMetrics :=
  { total_executions := 0
    successful_executions := 0
    failed_executions := 0
    total_execution_time_ms := 0
    average_execution_time_ms := 0
    total_mcp_calls := 0 }

/-- State of a `MetricsCollector` instance. -/
structure MetricsCollector where
  mcpMetrics : List (String × MCPMetrics)
  globalMetrics : ExecutionMetrics
deriving DecidableEq, Repr

/-- A freshly constructed `MetricsCollector`. -/
def MetricsCollector.init : MetricsCollector :=
  { mcpMetrics := [], globalMetrics := emptyExecutionMetrics }

/-- `MetricsCollector.recordMCPLoad`: (re)initializes the per-MCP record
with the given load time and zeroed execution counters. -/
def recordMCPLoad (s : MetricsCollector) (mcpId : String) (loadTimeMs : Rat) :
    MetricsCollector :=
  { s with
      mcpMetrics :=
        mapSet s.mcpMetrics mcpId
          { mcp_id := mcpId, load_time_ms := loadTimeMs
            executions := emptyExecutionMetrics } }

/-- The counter updates applied by `recordExecution` to one
`ExecutionMetrics` record. -/
def updateExecution (executionTimeMs : Rat) (success : Bool) (mcpCallsMade : Rat)
    (e : ExecutionMetrics) : ExecutionMetrics :=
  let e1 := { e with total_executions := e.total_executions + 1 }
  let e2 :=
    if success then
      { e1 with successful_executions := e1.successful_executions + 1 }
    else
      { e1 with failed_executions := e1.failed_executions + 1 }
  let e3 :=
    { e2 with
        total_execution_time_ms := e2.total_execution_time_ms + executionTimeMs }
  let e4 :=
    { e3 with
        average_execution_time_ms :=
          e3.total_execution_time_ms / (e3.total_executions : Rat) }
  { e4 with total_mcp_calls := e4.total_mcp_calls + mcpCallsMade }

/-- `MetricsCollector.recordExecution`: updates the per-MCP counters when a
record for `mcpId` exists (in place, preserving map order) and always
updates the global counters. -/
def recordExecution (s : MetricsCollector) (mcpId : String)
    (executionTimeMs : Rat) (success : Bool) (mcpCallsMade : Rat) :
    MetricsCollector :=
  let mcpMetrics' :=
    match mapLookup s.mcpMetrics mcpId with
    | some m =>
        mapSet s.mcpMetrics mcpId
          { m with
              executions :=
                updateExecution executionTimeMs success mcpCallsMade m.executions }
    | none => s.mcpMetrics
  { mcpMetrics := mcpMetrics'
    globalMetrics :=
      updateExecution executionTimeMs success mcpCallsMade s.globalMetrics }

/-- `MetricsCollector.resetMetrics`: clears the map and zeroes the global
counters. -/
def resetMetrics (_s : MetricsCollector) : MetricsCollector :=
  MetricsCollector.init

/-- One recording call on the collector, between two resets. -/
inductive MetricsOp where
  | load (mcpId : String) (loadTimeMs : Rat) : MetricsOp
  | exec (mcpId : String) (executionTimeMs : Rat) (success : Bool)
      (mcpCallsMade : Rat) : MetricsOp
deriving DecidableEq, Repr

/-- Apply one recording call to the collector state. -/
def applyMetricsOp (s : MetricsCollector) : MetricsOp → MetricsCollector
  | .load mcpId loadTimeMs => recordMCPLoad s mcpId loadTimeMs
  | .exec mcpId t success calls => recordExecution s mcpId t success calls

/-- Apply a sequence of recording calls, in order. -/
def runMetricsOps (ops : List MetricsOp) (s : MetricsCollector) : MetricsCollector :=
  ops.foldl applyMetricsOp s

/-- An op records only non-negative times and call counts. -/
def MetricsOp.nonneg : MetricsOp → Prop
  | .load _ t => 0 ≤ t
  | .exec _ t _ calls => 0 ≤ t ∧ 0 ≤ calls

instance : DecidablePred MetricsOp.nonneg := fun op => by
  cases op <;> simp [MetricsOp.nonneg] <;> infer_instance

/-- An op is not a `recordMCPLoad` for the given backend. -/
def avoidsLoadOf (mcpId : String) : MetricsOp → Bool
  | .load i _ => i != mcpId
  | .exec _ _ _ _ => true

/-- Pointwise order on the five externally meaningful counters (the running
average is excluded). -/
def counterLE (e e' : ExecutionMetrics) : Prop :=
  e.total_executions ≤ e'.total_executions ∧
  e.successful_executions ≤ e'.successful_executions ∧
  e.failed_executions ≤ e'.failed_executions ∧
  e.total_execution_time_ms ≤ e'.total_execution_time_ms ∧
  e.total_mcp_calls ≤ e'.total_mcp_calls

instance (e e' : ExecutionMetrics) : Decidable (counterLE e e') := by
  unfold counterLE; infer_instance

/-- The execution counters currently recorded for one backend (zeroes when
the backend has no record). -/
def backendCounters (s : MetricsCollector) (mcpId : String) : ExecutionMetrics :=
  ((mapLookup s.mcpMetrics mcpId).map (fun m => m.executions)).getD
    emptyExecutionMetrics

/-- Per-server record inside an IDE `mcpServers` config object
(config-loader.ts). -/
structure MCPServerConfigEntry where
  command : Option String
  args : Option (List String)
  url : Option String
  env : Option (List (String × String))
  disabled : Option Bool
deriving DecidableEq, Repr

/-- MCP server info from IDE config (`MCPServerInfo` in types.ts). -/
structure MCPServerInfo where
  name : String
  command : Option String
  args : Option (List String)
  url : Option String
  env : Option (List (String × String))
  source : String
  enabled : Bool
deriving DecidableEq, Repr

/-- The observable input of one IDE config loader: `none` when no readable
config file with an `mcpServers` object was found, otherwise the entries of
the first found config's `mcpServers` object, in object order. -/
def IDEConfigInput : Type := Option (List (String × MCPServerConfigEntry))

/-- Common body of `loadClaudeConfig` / `loadCopilotConfig` /
`loadCursorConfig`: turn each entry into an `MCPServerInfo` tagged with the
source IDE, skipping the `mcpguard` entry itself. -/
def loadIDEConfig (source : String) (cfg : IDEConfigInput) : List MCPServerInfo :=
  match cfg with
  | none => []
  | some entries =>
      entries.filterMap (fun e =>
        if e.1 = "mcpguard" then
          none
        else
          some
            { name := e.1
              command := e.2.command
              args := e.2.args
              url := e.2.url
              env := e.2.env
              source := source
              enabled := !(e.2.disabled.getD false) })

/-- `loadClaudeConfig` from config-loader.ts. -/
def loadClaudeConfig (cfg : IDEConfigInput) : List MCPServerInfo :=
  loadIDEConfig "claude" cfg

/-- `loadCopilotConfig` from config-loader.ts. -/
def loadCopilotConfig (cfg : IDEConfigInput) : List MCPServerInfo :=
  loadIDEConfig "copilot" cfg

/-- `loadCursorConfig` from config-loader.ts. -/
def loadCursorConfig (cfg : IDEConfigInput) : List MCPServerInfo :=
  loadIDEConfig "cursor" cfg

/-- The `seenNames` deduplication loop of `loadAllMCPServers`: keep the
first entry for each name, skipping names already seen. -/
def dedupeByName (seen : List String) : List MCPServerInfo → List MCPServerInfo
  | [] => []
  | m :: ms =>
      if m.name ∈ seen then dedupeByName seen ms
      else m :: dedupeByName (m.name :: seen) ms

/-- `loadAllMCPServers` from config-loader.ts: concatenate the per-IDE
lists in priority order (claude, copilot, cursor) and deduplicate by name,
preferring earlier sources. -/
def loadAllMCPServers (claude copilot cursor : IDEConfigInput) :
    List MCPServerInfo :=
  dedupeByName []
    (loadClaudeConfig claude ++ loadCopilotConfig copilot ++ loadCursorConfig cursor)

/-- JSON Schema property, restricted to the fields the schema converter
consumes (`JSONSchemaProperty`): `type`, `description`, `items`,
`properties`, `required`. -/
inductive JSONSchemaProperty where
  | mk (type : Option String) (description : Option String)
      (items : Option JSONSchemaProperty)
      (properties : Option (List (String × JSONSchemaProperty)))
      (required : Option (List String)) : JSONSchemaProperty

/-- The `type` field of a schema property. -/
def JSONSchemaProperty.type : JSONSchemaProperty → Option String
  | .mk t _ _ _ _ => t

/-- The `description` field of a schema property. -/
def JSONSchemaProperty.description : JSONSchemaProperty → Option String
  | .mk _ d _ _ _ => d

/-- The `items` field of a schema property. -/
def JSONSchemaProperty.items : JSONSchemaProperty → Option JSONSchemaProperty
  | .mk _ _ i _ _ => i

/-- The `properties` field of a schema property. -/
def JSONSchemaProperty.properties :
    JSONSchemaProperty → Option (List (String × JSONSchemaProperty))
  | .mk _ _ _ p _ => p

/-- The `required` field of a schema property. -/
def JSONSchemaProperty.required : JSONSchemaProperty → Option (List String)
  | .mk _ _ _ _ r => r

/-- An MCP tool as consumed by the converter: name, optional description,
and input JSON schema. -/
structure MCPTool where
  name : String
  description : Option String
  inputSchema : JSONSchemaProperty

/-- JS truthiness of an optional string: `undefined` and `""` are falsy. -/
def strTruthy : Option String → Bool
  | some s => !(s == "")
  | none => false

/-- JS `Array.prototype.join(sep)`. -/
def joinSep (sep : String) : List String → String
  | [] => ""
  | [a] => a
  | a :: rest => a ++ sep ++ joinSep sep rest

/-- Is the character a segment separator of `toPascalCase` (regex `[-_]`)? -/
def isSepChar (c : Char) : Bool := c = '-' || c = '_'

/-- JS `str.split(/[-_]/)` at the character level. -/
def splitOnSep : List Char → List (List Char)
  | [] => [[]]
  | c :: cs =>
      if isSepChar c then [] :: splitOnSep cs
      else
        match splitOnSep cs with
        | [] => [[c]]
        | l :: ls => (c :: l) :: ls

/-- `word.charAt(0).toUpperCase() + word.slice(1)` at the character level. -/
def capitalizeChars : List Char → List Char
  | [] => []
  | c :: cs => c.toUpper :: cs

/-- `SchemaConverter.toPascalCase`. -/
def toPascalCase (s : String) : String :=
  String.mk (((splitOnSep s.data).map capitalizeChars).flatten)

/-- `SchemaConverter.jsonSchemaToTypeScript`: maps a JSON schema property
to TypeScript type text; unsupported or missing `type` degrades to
`unknown`. -/
def jsonSchemaToTypeScript : JSONSchemaProperty → String
  | .mk type _ items props required =>
      match type with
      | none => "unknown"
      | some t =>
          if t = "string" then "string"
          else if t = "number" then "number"
          else if t = "integer" then "number"
          else if t = "boolean" then "boolean"
          else if t = "array" then
            (match items with
             | some s => jsonSchemaToTypeScript s
             | none => "unknown") ++ "[]"
          else if t = "object" then
            match props with
            | some properties =>
                "\x7b " ++
                  joinSep "; "
                    (properties.attach.map (fun pr =>
                      pr.1.1 ++
                        (if (required.getD []).contains pr.1.1 then "" else "?") ++
                        ": " ++ jsonSchemaToTypeScript pr.1.2)) ++
                  " \x7d"
            | none => "Record<string, unknown>"
          else "unknown"
termination_by s => sizeOf s
decreasing_by
  · simp_wf
    omega
  · simp_wf
    have h1 := List.sizeOf_lt_of_mem pr.2
    have h2 : sizeOf pr.1 = 1 + sizeOf pr.1.1 + sizeOf pr.1.2 := by
      rcases pr.1 with ⟨a, b⟩
      simp
    omega

/-- The per-property field text of `generateInterfaceForTool` (the body of
the mapped lambda). -/
def fieldString (required : List String) (kv : String × JSONSchemaProperty) :
    String :=
  let optional := !(required.contains kv.1)
  let tsType := jsonSchemaToTypeScript kv.2
  let description :=
    if strTruthy kv.2.description then
      "\n  /**\n   * " ++ kv.2.description.getD "" ++ "\n   */\n  "
    else "\n  "
  description ++ kv.1 ++ (if optional then "?" else "") ++ ": " ++ tsType ++ ";"

/-- `SchemaConverter.generateInterfaceForTool`. -/
def generateInterfaceForTool (tool : MCPTool) : String :=
  let inputInterfaceName := toPascalCase tool.name ++ "Input"
  let outputInterfaceName := toPascalCase tool.name ++ "Output"
  let inputProps := tool.inputSchema.properties.getD []
  let required := tool.inputSchema.required.getD []
  let inputFields := joinSep "\n" (inputProps.map (fieldString required))
  "interface " ++ inputInterfaceName ++ " \x7b\n" ++ inputFields ++
    "\n\x7d\n\ninterface " ++ outputInterfaceName ++
    " \x7b\n  [key: string]: unknown;\n\x7d"

/-- The per-tool method text of `generateAPIObject` (the body of the mapped
lambda). -/
def methodString (tool : MCPTool) : String :=
  let inputType := toPascalCase tool.name ++ "Input"
  let outputType := toPascalCase tool.name ++ "Output"
  let description :=
    if strTruthy tool.description then
      "\n  /**\n   * " ++ tool.description.getD "" ++ "\n   */\n  "
    else "\n  "
  description ++ tool.name ++ ": (input: " ++ inputType ++ ") => Promise<" ++
    outputType ++ ">;"

/-- `SchemaConverter.generateAPIObject`. -/
def generateAPIObject (tools : List MCPTool) : String :=
  "declare const mcp: \x7b\n" ++ joinSep "\n" (tools.map methodString) ++
    "\n\x7d;"

/-- `SchemaConverter.convertToTypeScript`. -/
def convertToTypeScript (tools : List MCPTool) : String :=
  joinSep "\n\n" (tools.map generateInterfaceForTool) ++ "\n\n" ++
    generateAPIObject tools

/-- Split a character list into its lines at every newline character. -/
def splitLinesChars : List Char → List (List Char)
  | [] => [[]]
  | c :: cs =>
      if c = '\n' then [] :: splitLinesChars cs
      else
        match splitLinesChars cs with
        | [] => [[c]]
        | l :: ls => (c :: l) :: ls

/-- The lines of a string, as character lists. -/
def linesOf (s : String) : List (List Char) := splitLinesChars s.data

/-- Rebuild a character list from a list of lines (inverse of
`splitLinesChars` on newline-free lines). -/
def unlines : List (List Char) → List Char
  | [] => []
  | [l] => l
  | l :: ls => l ++ '\n' :: unlines ls

/-- The lines of the generated text that begin a TypeScript `interface`
declaration. -/
def interfaceHeaderLines (s : String) : List (List Char) :=
  (linesOf s).filter (fun l => "interface ".data.isPrefixOf l)

/-- The lines of the generated text that begin the aggregate
`declare const mcp` declaration. -/
def declareMcpLines (s : String) : List (List Char) :=
  (linesOf s).filter (fun l => "declare const mcp".data.isPrefixOf l)

/-- The method lines of the generated aggregate object: exactly the lines
ending in the `>;` of `... => Promise<...>;`. -/
def methodLinesOf (s : String) : List (List Char) :=
  (linesOf s).filter (fun l => ">;".data.isSuffixOf l)

/-- A string free of newline characters. -/
def noNL (s : String) : Bool := !(s.data.contains '\n')

/-- A newline-free optional string. -/
def optNoNL : Option String → Bool
  | some d => noNL d
  | none => true

/-- All property keys occurring anywhere in a schema are newline-free (the
keys are the only schema strings that `jsonSchemaToTypeScript` copies into
its output). -/
def schemaKeysNoNL : JSONSchemaProperty → Bool
  | .mk _ _ items props _ =>
      (match items with
       | some s => schemaKeysNoNL s
       | none => true) &&
      (match props with
       | some l => l.attach.all (fun pr => noNL pr.1.1 && schemaKeysNoNL pr.1.2)
       | none => true)
termination_by s => sizeOf s
decreasing_by
  · simp_wf
    omega
  · simp_wf
    have h1 := List.sizeOf_lt_of_mem pr.2
    have h2 : sizeOf pr.1 = 1 + sizeOf pr.1.1 + sizeOf pr.1.2 := by
      rcases pr.1 with ⟨a, b⟩
      simp
    omega

/-- Sanitation of one tool: its name, description, property keys and
property descriptions contain no newline, and its description does not end
in `>;`. -/
def toolSane (t : MCPTool) : Bool :=
  noNL t.name &&
  (match t.description with
   | some d => noNL d && !(">;".data.isSuffixOf d.data)
   | none => true) &&
  (match t.inputSchema.properties with
   | some l =>
       l.all (fun kv => noNL kv.1 && optNoNL kv.2.description && schemaKeysNoNL kv.2)
   | none => true)

/-- The expected interface header lines for one tool. -/
def expectedInterfaceHeaders (t : MCPTool) : List (List Char) :=
  [("interface " ++ toPascalCase t.name ++ "Input \x7b").data,
   ("interface " ++ toPascalCase t.name ++ "Output \x7b").data]

/-- The expected method line for one tool inside `declare const mcp`. -/
def expectedMethodLine (t : MCPTool) : List Char :=
  ("  " ++ t.name ++ ": (input: " ++ toPascalCase t.name ++ "Input) => Promise<" ++
    toPascalCase t.name ++ "Output>;").data

/-- A concrete security config with networking enabled, used by witnesses. -/
def sampleConfig : MCPSecurityConfig :=
  { id := "config-github-1"
    mcpName := "github"
    isGuarded := true
    network := { enabled := true, allowlist := ["api.github.com"], allowLocalhost := true }
    fileSystem := { enabled := true, readPaths := ["/tmp"], writePaths := [] }
    resourceLimits := { maxExecutionTimeMs := 30000, maxMemoryMB := 128, maxMCPCalls := 100 }
    lastModified := "2024-01-01" }

/-- An unguarded config named `a`, first of a duplicate pair. -/
def cfgUnguardedA : MCPSecurityConfig :=
  { id := "config-a-1"
    mcpName := "a"
    isGuarded := false
    network := { enabled := false, allowlist := [], allowLocalhost := false }
    fileSystem := { enabled := false, readPaths := [], writePaths := [] }
    resourceLimits := { maxExecutionTimeMs := 30000, maxMemoryMB := 128, maxMCPCalls := 100 }
    lastModified := "" }

/-- A guarded config named `a`, second of a duplicate pair. -/
def cfgGuardedA : MCPSecurityConfig :=
  { cfgUnguardedA with id := "config-a-2", isGuarded := true }

/-- A settings document holding two configs with the same `mcpName`, the
first unguarded and the second guarded. -/
def dupSettings : MCPGuardSettings :=
  { enabled := true
    defaults := DEFAULT_SECURITY_CONFIG
    mcpConfigs := [cfgUnguardedA, cfgGuardedA] }

/-- A settings document holding the sample config only. -/
def sampleSettings : MCPGuardSettings :=
  { enabled := true
    defaults := DEFAULT_SECURITY_CONFIG
    mcpConfigs := [sampleConfig] }

/-- The final (non-comment) line of one generated interface field. -/
def fieldMainLine (required : List String) (kv : String × JSONSchemaProperty) :
    List Char :=
  ("  " ++ kv.1 ++ (if !(required.contains kv.1) then "?" else "") ++ ": " ++
    jsonSchemaToTypeScript kv.2 ++ ";").data

/-- The lines contributed by one field of a generated input interface (each
field string begins with a newline, hence the leading empty line). -/
def fieldBlock (required : List String) (kv : String × JSONSchemaProperty) :
    List (List Char) :=
  if strTruthy kv.2.description then
    [[], "  /**".data, "   * ".data ++ (kv.2.description.getD "").data,
      "   */".data, fieldMainLine required kv]
  else
    [[], fieldMainLine required kv]

/-- The lines contributed by one tool to the aggregate `declare const mcp`
object. -/
def methodBlock (t : MCPTool) : List (List Char) :=
  if strTruthy t.description then
    [[], "  /**".data, "   * ".data ++ (t.description.getD "").data,
      "   */".data, expectedMethodLine t]
  else
    [[], expectedMethodLine t]

/-- Concatenation of line blocks joined by `joinSep "\n"` (an empty list of
blocks still yields the single empty line of the empty string). -/
def joinLineBlocks : List (List (List Char)) → List (List Char)
  | [] => [[]]
  | [b] => b
  | b :: bs => b ++ joinLineBlocks bs

/-- Concatenation of line blocks joined by `joinSep "\n\n"`: the double
newline inserts one empty line between adjacent blocks. -/
def joinLineBlocksSep : List (List (List Char)) → List (List Char)
  | [] => [[]]
  | [b] => b
  | b :: bs => b ++ [] :: joinLineBlocksSep bs

/-- The lines of one generated interface pair. -/
def interfaceBlock (t : MCPTool) : List (List Char) :=
  ("interface " ++ (toPascalCase t.name ++ "Input") ++ " \x7b").data ::
    (joinLineBlocks ((t.inputSchema.properties.getD []).map
        (fieldBlock (t.inputSchema.required.getD []))) ++
      ["\x7d".data, [],
       ("interface " ++ (toPascalCase t.name ++ "Output") ++ " \x7b").data,
       "  [key: string]: unknown;".data,
       "\x7d".data])

/-- The lines of the generated aggregate `declare const mcp` object. -/
def apiBlock (tools : List MCPTool) : List (List Char) :=
  "declare const mcp: \x7b".data ::
    (joinLineBlocks (tools.map methodBlock) ++ ["\x7d;".data])

/-- The lines of the full generated text. -/
def outputBlock (tools : List MCPTool) : List (List Char) :=
  joinLineBlocksSep (tools.map interfaceBlock) ++ [] :: apiBlock tools

/-- A tool whose description injects text that escapes its doc comment. -/
def evilTool : MCPTool :=
  { name := "go"
    description := some "*/\ninterface Evil \x7b\x7d\n/**"
    inputSchema := .mk (some "object") none none none none }

/-- A plain sample tool with no input properties. -/
def sampleToolA : MCPTool :=
  { name := "assign-coding_agent"
    description := some "Assigns the coding agent"
    inputSchema := .mk (some "object") none none (some []) (some []) }

/-- A second sample tool with no description and no schema fields. -/
def sampleToolB : MCPTool :=
  { name := "listFiles"
    description := none
    inputSchema := .mk (some "object") none none none none }

/-- C2: for every security policy, the resolved isolation configuration has
`outbound.allowedHosts = null` exactly when the network is disabled or the
allowlist is empty, and carries the allowlist through otherwise. -/
theorem allowedHosts_null_iff_network_disabled_or_empty (config : MCPSecurityConfig) :
    (toWorkerIsolationConfig config).outbound.allowedHosts =
      if config.network.enabled = false ∨ config.network.allowlist = [] then
        none
      else
        some config.network.allowlist := by
  cases h1 : config.network.enabled <;>
    cases h2 : config.network.allowlist <;>
      simp [toWorkerIsolationConfig, h1, h2]

/-- C3: the resolved isolation configuration forces
`outbound.allowLocalhost` to false when the network is disabled and passes
the policy's `allowLocalhost` through unchanged when the network is
enabled. -/
theorem allowLocalhost_forced_false_when_network_disabled (config : MCPSecurityConfig) :
    (toWorkerIsolationConfig config).outbound.allowLocalhost =
      if config.network.enabled = true then config.network.allowLocalhost
      else false := by
  cases h : config.network.enabled <;> simp [toWorkerIsolationConfig, h]

/-- C4: the security policy resolver is deterministic — equal inputs to
`toWorkerIsolationConfig` produce identical isolation configurations (the
embedding of the resolver as a pure function is itself the no-side-effect
part of the claim: the source body is a single object literal with no
writes). -/
theorem toWorkerIsolationConfig_deterministic (c₁ c₂ : MCPSecurityConfig)
    (h : c₁ = c₂) : toWorkerIsolationConfig c₁ = toWorkerIsolationConfig c₂ := by
  rw [h]

/-- Witness for C4 at the sample config. -/
theorem toWorkerIsolationConfig_deterministic_witness :
    toWorkerIsolationConfig sampleConfig = toWorkerIsolationConfig sampleConfig :=
  toWorkerIsolationConfig_deterministic sampleConfig sampleConfig rfl

/-- C5: the resolved isolation configuration carries the file system fields
and the resource limit values through unchanged (`maxExecutionTimeMs` as
`limits.cpuMs`, `maxMemoryMB` as `limits.memoryMB`, `maxMCPCalls` as
`limits.subrequests`). -/
theorem fileSystem_and_limits_passthrough (config : MCPSecurityConfig) :
    (toWorkerIsolationConfig config).fileSystem.enabled = config.fileSystem.enabled ∧
    (toWorkerIsolationConfig config).fileSystem.readPaths = config.fileSystem.readPaths ∧
    (toWorkerIsolationConfig config).fileSystem.writePaths = config.fileSystem.writePaths ∧
    (toWorkerIsolationConfig config).fileSystem = config.fileSystem ∧
    (toWorkerIsolationConfig config).limits.cpuMs =
      config.resourceLimits.maxExecutionTimeMs ∧
    (toWorkerIsolationConfig config).limits.memoryMB =
      config.resourceLimits.maxMemoryMB ∧
    (toWorkerIsolationConfig config).limits.subrequests =
      config.resourceLimits.maxMCPCalls :=
  ⟨rfl, rfl, rfl, rfl, rfl, rfl, rfl⟩

/-- C9: when the settings file is absent or unparseable, `loadSettings`
returns the defaults (guard enabled, no per-MCP configs); in that state no
MCP is guarded and the guarded-config map is empty. -/
theorem loadSettings_failsafe_defaults :
    loadSettings .absent = DEFAULT_SETTINGS ∧
    loadSettings .unparseable = DEFAULT_SETTINGS ∧
    DEFAULT_SETTINGS.enabled = true ∧
    DEFAULT_SETTINGS.mcpConfigs = [] ∧
    (∀ name, isMCPGuarded .absent name = false) ∧
    (∀ name, isMCPGuarded .unparseable name = false) ∧
    getAllGuardedMCPs .absent = [] ∧
    getAllGuardedMCPs .unparseable = [] :=
  ⟨rfl, rfl, rfl, rfl, fun _ => rfl, fun _ => rfl, rfl, rfl⟩

/-- C8: a schema property whose `type` is absent or not one of the six
supported names converts to the untyped placeholder `unknown` (and the
converter, being a total function, cannot fail on it). -/
theorem jsonSchemaToTypeScript_unknown_on_unsupported
    (type description : Option String) (items : Option JSONSchemaProperty)
    (props : Option (List (String × JSONSchemaProperty)))
    (required : Option (List String))
    (h : type = none ∨ ∀ t, type = some t →
        t ∉ (["string", "number", "integer", "boolean", "array", "object"] :
          List String)) :
    jsonSchemaToTypeScript (.mk type description items props required) =
      "unknown" := by
  rcases h with h | h
  · subst h
    rw [jsonSchemaToTypeScript.eq_def]
  · cases type with
    | none => rw [jsonSchemaToTypeScript.eq_def]
    | some t =>
        have ht := h t rfl
        have h1 : t ≠ "string" := fun hh => ht (by simp [hh])
        have h2 : t ≠ "number" := fun hh => ht (by simp [hh])
        have h3 : t ≠ "integer" := fun hh => ht (by simp [hh])
        have h4 : t ≠ "boolean" := fun hh => ht (by simp [hh])
        have h5 : t ≠ "array" := fun hh => ht (by simp [hh])
        have h6 : t ≠ "object" := fun hh => ht (by simp [hh])
        rw [jsonSchemaToTypeScript.eq_def]
        simp [h1, h2, h3, h4, h5, h6]

/-- Witness for C8 at the unsupported schema type `null`. -/
theorem jsonSchemaToTypeScript_unknown_witness :
    jsonSchemaToTypeScript (.mk (some "null") none none none none) = "unknown" :=
  jsonSchemaToTypeScript_unknown_on_unsupported (some "null") none none none none
    (Or.inr (fun t ht => by cases ht; decide))

theorem mapLookup_mapSet {α : Type} (m : List (String × α)) (k k' : String) (v : α) :
    mapLookup (mapSet m k v) k' = if k' = k then some v else mapLookup m k' := by
  induction m with
  | nil =>
      by_cases h : k' = k
      · subst h
        simp [mapSet, mapLookup]
      · have hne : ¬ k = k' := fun hh => h hh.symm
        simp [mapSet, mapLookup, h, hne]
  | cons p rest ih =>
      obtain ⟨k₀, v₀⟩ := p
      by_cases h0 : k₀ = k
      · subst h0
        by_cases h : k' = k₀
        · subst h
          simp [mapSet, mapLookup]
        · have hne : ¬ k₀ = k' := fun hh => h hh.symm
          simp [mapSet, mapLookup, h, hne]
      · by_cases h : k₀ = k'
        · subst h
          simp [mapSet, mapLookup, h0]
        · simp [mapSet, mapLookup, h0, h, ih]

theorem mapLookup_foldGuard (l : List MCPSecurityConfig)
    (acc : List (String × WorkerIsolationConfig)) (name : String) :
    (mapLookup
        (l.foldl
          (fun configs config =>
            if config.isGuarded then
              mapSet configs config.mcpName (toWorkerIsolationConfig config)
            else configs)
          acc) name).isSome =
      ((mapLookup acc name).isSome ||
        l.any (fun c => c.mcpName == name && c.isGuarded)) := by
  induction l generalizing acc with
  | nil => simp
  | cons c rest ih =>
      simp only [List.foldl_cons, List.any_cons]
      by_cases hg : c.isGuarded = true
      · rw [if_pos hg]
        rw [ih]
        by_cases hn : name = c.mcpName
        · simp [mapLookup_mapSet, hn, hg]
        · have : ¬ (c.mcpName == name) = true := by
            simp [beq_iff_eq]
            exact fun hh => hn hh.symm
          simp [mapLookup_mapSet, hn, this]
      · have hg' : c.isGuarded = false := by
          cases hcg : c.isGuarded
          · rfl
          · exact absurd hcg hg
        rw [if_neg hg]
        rw [ih]
        simp [hg']

/-- C1 (amended): with the global guard flag on, `getIsolationConfigForMCP`
returns an isolation configuration exactly when the first per-MCP config
whose `mcpName` equals the requested name exists and has `isGuarded` true
(with duplicate names, a later guarded config does not override an earlier
unguarded one); the keys of `getAllGuardedMCPs` are exactly the names
carrying some guarded config; with the flag off both return nothing, so an
unguarded backend never obtains an isolation configuration. -/
theorem guard_gating_characterization (s : MCPGuardSettings) (name : String) :
    ((getIsolationConfigForMCP (.parsed s) name).isSome = true ↔
      s.enabled = true ∧
        ∃ c, s.mcpConfigs.find? (fun c => c.mcpName == name) = some c ∧
          c.isGuarded = true) ∧
    ((mapLookup (getAllGuardedMCPs (.parsed s)) name).isSome = true ↔
      s.enabled = true ∧ ∃ c ∈ s.mcpConfigs, c.mcpName = name ∧ c.isGuarded = true) ∧
    (s.enabled = false → getIsolationConfigForMCP (.parsed s) name = none ∧
      getAllGuardedMCPs (.parsed s) = []) := by
  refine ⟨?_, ?_, ?_⟩
  · unfold getIsolationConfigForMCP loadSettings
    cases he : s.enabled
    · simp [he]
    · simp only [he, Bool.true_eq_false, if_false, true_and]
      cases hf : s.mcpConfigs.find? (fun c => c.mcpName == name) with
      | none => simp [hf]
      | some c =>
          cases hg : c.isGuarded <;> simp [hf, hg]
  · unfold getAllGuardedMCPs loadSettings
    cases he : s.enabled
    · simp [he, mapLookup]
    · simp only [he, Bool.true_eq_false, if_false, true_and]
      rw [mapLookup_foldGuard]
      simp [mapLookup, List.any_eq_true, beq_iff_eq, and_assoc]
  · intro he
    unfold getIsolationConfigForMCP getAllGuardedMCPs loadSettings
    simp [he]

/-- Counterexample to C1 as stated: in a settings document where an
unguarded config named `a` precedes a guarded config named `a`, a guarded
config for `a` exists and the guard is globally enabled, yet
`getIsolationConfigForMCP "a"` returns nothing. -/
theorem guard_gating_counterexample :
    dupSettings.enabled = true ∧
    (∃ c ∈ dupSettings.mcpConfigs, c.mcpName = "a" ∧ c.isGuarded = true) ∧
    getIsolationConfigForMCP (.parsed dupSettings) "a" = none := by
  refine ⟨rfl, ⟨cfgGuardedA, by decide, by decide, by decide⟩, by decide⟩

/-- Witness for C1 (amended) at the sample settings document. -/
theorem guard_gating_witness :
    (getIsolationConfigForMCP (.parsed sampleSettings) "github").isSome = true ∧
    (sampleSettings.enabled = false → getIsolationConfigForMCP (.parsed sampleSettings) "github" = none ∧
      getAllGuardedMCPs (.parsed sampleSettings) = []) :=
  ⟨((guard_gating_characterization sampleSettings "github").1).mpr
      ⟨rfl, sampleConfig, by decide, rfl⟩,
    (guard_gating_characterization sampleSettings "github").2.2⟩

theorem mem_dedupeByName {m : MCPServerInfo} {seen : List String}
    {l : List MCPServerInfo} (h : m ∈ dedupeByName seen l) : m ∈ l := by
  induction l generalizing seen with
  | nil => simp [dedupeByName] at h
  | cons x xs ih =>
      by_cases hx : x.name ∈ seen
      · simp only [dedupeByName, if_pos hx] at h
        exact List.mem_cons_of_mem x (ih h)
      · simp only [dedupeByName, if_neg hx, List.mem_cons] at h
        rcases h with h | h
        · exact h ▸ List.mem_cons_self x xs
        · exact List.mem_cons_of_mem x (ih h)

theorem dedupeByName_name_not_seen {m : MCPServerInfo} {seen : List String}
    {l : List MCPServerInfo} (h : m ∈ dedupeByName seen l) : m.name ∉ seen := by
  induction l generalizing seen with
  | nil => simp [dedupeByName] at h
  | cons x xs ih =>
      by_cases hx : x.name ∈ seen
      · simp only [dedupeByName, if_pos hx] at h
        exact ih h
      · simp only [dedupeByName, if_neg hx, List.mem_cons] at h
        rcases h with h | h
        · exact h ▸ hx
        · intro hc
          exact ih h (List.mem_cons_of_mem x.name hc)

theorem dedupeByName_names_nodup (seen : List String) (l : List MCPServerInfo) :
    ((dedupeByName seen l).map (fun m => m.name)).Nodup := by
  induction l generalizing seen with
  | nil => simp [dedupeByName]
  | cons x xs ih =>
      by_cases hx : x.name ∈ seen
      · simp only [dedupeByName, if_pos hx]
        exact ih seen
      · simp only [dedupeByName, if_neg hx, List.map_cons, List.nodup_cons]
        refine ⟨?_, ih (x.name :: seen)⟩
        intro hc
        rcases List.mem_map.mp hc with ⟨m, hm, hname⟩
        exact dedupeByName_name_not_seen hm (hname ▸ List.mem_cons_self x.name seen)

theorem find?_dedupeByName (seen : List String) (l : List MCPServerInfo)
    (n : String) (h : n ∉ seen) :
    (dedupeByName seen l).find? (fun m => m.name == n) =
      l.find? (fun m => m.name == n) := by
  induction l generalizing seen with
  | nil => simp [dedupeByName]
  | cons x xs ih =>
      by_cases hx : x.name ∈ seen
      · have hxn : ¬ (x.name == n) = true := by
          simp only [beq_iff_eq]
          intro hc
          exact h (hc ▸ hx)
        simp only [dedupeByName, if_pos hx]
        rw [ih seen h]
        simp [List.find?_cons, hxn]
      · simp only [dedupeByName, if_neg hx]
        by_cases hn : x.name = n
        · simp [List.find?_cons, hn]
        · have hxn : ¬ (x.name == n) = true := by simp [hn]
          simp only [List.find?_cons, hxn, Bool.false_eq_true, if_false, cond_false]
          exact ih (x.name :: seen) (by
            intro hc
            rcases List.mem_cons.mp hc with hc | hc
            · exact hn hc.symm
            · exact h hc)

theorem mem_loadIDEConfig {m : MCPServerInfo} {source : String}
    {cfg : IDEConfigInput} (h : m ∈ loadIDEConfig source cfg) :
    m.name ≠ "mcpguard" := by
  match cfg with
  | none => simp [loadIDEConfig] at h
  | some entries =>
      simp only [loadIDEConfig, List.mem_filterMap] at h
      rcases h with ⟨e, _, he⟩
      by_cases hg : e.1 = "mcpguard"
      · simp [hg] at he
      · simp only [if_neg hg, Option.some_inj] at he
        rw [← he]
        exact hg

/-- C10: `loadAllMCPServers` never returns two entries with the same name
and never an entry named `mcpguard`; for every name, the entry kept is the
first match in claude-copilot-cursor priority order, so an entry from an
earlier IDE source shadows later ones. -/
theorem loadAllMCPServers_unique_and_prioritized
    (claude copilot cursor : IDEConfigInput) :
    ((loadAllMCPServers claude copilot cursor).map (fun m => m.name)).Nodup ∧
    (∀ m ∈ loadAllMCPServers claude copilot cursor, m.name ≠ "mcpguard") ∧
    (∀ n, (loadAllMCPServers claude copilot cursor).find? (fun m => m.name == n) =
      ((loadClaudeConfig claude).find? (fun m => m.name == n)).or
        (((loadCopilotConfig copilot).find? (fun m => m.name == n)).or
          ((loadCursorConfig cursor).find? (fun m => m.name == n)))) := by
  refine ⟨dedupeByName_names_nodup [] _, ?_, ?_⟩
  · intro m hm
    have hmem := mem_dedupeByName hm
    rcases List.mem_append.mp hmem with hmem' | hc
    · rcases List.mem_append.mp hmem' with hc | hc
      · exact mem_loadIDEConfig hc
      · exact mem_loadIDEConfig hc
    · exact mem_loadIDEConfig hc
  · intro n
    unfold loadAllMCPServers
    rw [find?_dedupeByName [] _ n (by simp)]
    simp [List.find?_append]

/-- Witness for C10 on concrete IDE configs: a duplicate `github` entry
from copilot is dropped in favour of claude's, and `mcpguard` is skipped. -/
theorem loadAllMCPServers_witness :
    loadAllMCPServers
        (some [("github", ⟨some "npx", none, none, none, none⟩)])
        (some [("github", ⟨some "docker", none, none, none, none⟩),
               ("mcpguard", ⟨some "npx", none, none, none, none⟩),
               ("db", ⟨none, none, some "http://db", none, some true⟩)])
        none =
      [{ name := "github", command := some "npx", args := none, url := none,
         env := none, source := "claude", enabled := true },
       { name := "db", command := none, args := none, url := some "http://db",
         env := none, source := "copilot", enabled := false }] ∧
    ((loadAllMCPServers
        (some [("github", ⟨some "npx", none, none, none, none⟩)])
        (some [("github", ⟨some "docker", none, none, none, none⟩),
               ("mcpguard", ⟨some "npx", none, none, none, none⟩),
               ("db", ⟨none, none, some "http://db", none, some true⟩)])
        none).map (fun m => m.name)).Nodup :=
  ⟨by decide,
    (loadAllMCPServers_unique_and_prioritized
        (some [("github", ⟨some "npx", none, none, none, none⟩)])
        (some [("github", ⟨some "docker", none, none, none, none⟩),
               ("mcpguard", ⟨some "npx", none, none, none, none⟩),
               ("db", ⟨none, none, some "http://db", none, some true⟩)])
        none).1⟩

theorem counterLE_refl (e : ExecutionMetrics) : counterLE e e :=
  ⟨le_refl _, le_refl _, le_refl _, le_refl _, le_refl _⟩

theorem counterLE_trans {a b c : ExecutionMetrics} (h1 : counterLE a b)
    (h2 : counterLE b c) : counterLE a c :=
  ⟨le_trans h1.1 h2.1, le_trans h1.2.1 h2.2.1, le_trans h1.2.2.1 h2.2.2.1,
    le_trans h1.2.2.2.1 h2.2.2.2.1, le_trans h1.2.2.2.2 h2.2.2.2.2⟩

theorem updateExecution_counterLE (t : Rat) (success : Bool) (calls : Rat)
    (ht : 0 ≤ t) (hc : 0 ≤ calls) (e : ExecutionMetrics) :
    counterLE e (updateExecution t success calls e) := by
  unfold updateExecution counterLE
  cases success <;> simp <;> exact ⟨ht, hc⟩

theorem globalMetrics_applyOp (op : MetricsOp) (h : op.nonneg)
    (s : MetricsCollector) :
    counterLE s.globalMetrics (applyMetricsOp s op).globalMetrics := by
  cases op with
  | load mcpId t => exact counterLE_refl _
  | exec mcpId t success calls =>
      exact updateExecution_counterLE t success calls h.1 h.2 _

theorem backendCounters_applyOp (op : MetricsOp) (mcpId : String)
    (h : op.nonneg) (ha : avoidsLoadOf mcpId op = true) (s : MetricsCollector) :
    counterLE (backendCounters s mcpId) (backendCounters (applyMetricsOp s op) mcpId) := by
  cases op with
  | load i t =>
      have hne : ¬ (i = mcpId) := by
        simpa [avoidsLoadOf] using ha
      have hmi : ¬ (mcpId = i) := fun hh => hne hh.symm
      have heq : backendCounters (applyMetricsOp s (.load i t)) mcpId =
          backendCounters s mcpId := by
        simp [applyMetricsOp, recordMCPLoad, backendCounters, mapLookup_mapSet, hmi]
      rw [heq]
      exact counterLE_refl _
  | exec i t success calls =>
      simp only [applyMetricsOp, recordExecution]
      cases hl : mapLookup s.mcpMetrics i with
      | none =>
          simp only [hl]
          exact counterLE_refl _
      | some m =>
          simp only [hl]
          by_cases hi : mcpId = i
          · subst hi
            simp only [backendCounters, mapLookup_mapSet, if_pos rfl, hl,
              Option.map_some, Option.getD_some]
            exact updateExecution_counterLE t success calls h.1 h.2 _
          · simp only [backendCounters, mapLookup_mapSet, if_neg hi]
            exact counterLE_refl _

/-- C6 (amended): between two resets and over any sequence of
`recordMCPLoad` / `recordExecution` calls with non-negative times and call
counts, every global counter is monotonically non-decreasing, and every
per-backend counter is monotonically non-decreasing provided the sequence
contains no further `recordMCPLoad` for that backend (a reload zeroes that
backend's execution counters). -/
theorem metrics_counters_monotone (ops : List MetricsOp) (s : MetricsCollector)
    (h : ∀ op ∈ ops, op.nonneg) :
    counterLE s.globalMetrics (runMetricsOps ops s).globalMetrics ∧
    ∀ mcpId, (∀ op ∈ ops, avoidsLoadOf mcpId op = true) →
      counterLE (backendCounters s mcpId)
        (backendCounters (runMetricsOps ops s) mcpId) := by
  induction ops generalizing s with
  | nil => exact ⟨counterLE_refl _, fun _ _ => counterLE_refl _⟩
  | cons op rest ih =>
      have hop : op.nonneg := h op (List.mem_cons_self op rest)
      have hrest : ∀ o ∈ rest, o.nonneg :=
        fun o ho => h o (List.mem_cons_of_mem op ho)
      have ihs := ih (applyMetricsOp s op) hrest
      constructor
      · exact counterLE_trans (globalMetrics_applyOp op hop s) ihs.1
      · intro mcpId hav
        have hav1 : avoidsLoadOf mcpId op = true :=
          hav op (List.mem_cons_self op rest)
        have hav2 : ∀ o ∈ rest, avoidsLoadOf mcpId o = true :=
          fun o ho => hav o (List.mem_cons_of_mem op ho)
        exact counterLE_trans (backendCounters_applyOp op mcpId hop hav1 s)
          (ihs.2 mcpId hav2)

/-- Counterexample to C6 as stated: a second `recordMCPLoad` for backend
`a` (a reload) zeroes that backend's `total_executions` counter from 1 back
to 0, with no reset in between and only non-negative recorded values. -/
theorem metrics_counters_counterexample :
    (∀ op ∈ ([.load "a" 1, .exec "a" 5 true 1, .load "a" 1] : List MetricsOp),
      op.nonneg) ∧
    (backendCounters (runMetricsOps [.load "a" 1, .exec "a" 5 true 1]
      .init) "a").total_executions = 1 ∧
    (backendCounters (runMetricsOps [.load "a" 1, .exec "a" 5 true 1, .load "a" 1]
      .init) "a").total_executions = 0 ∧
    ¬ counterLE
        (backendCounters (runMetricsOps [.load "a" 1, .exec "a" 5 true 1]
          .init) "a")
        (backendCounters (runMetricsOps [.load "a" 1, .exec "a" 5 true 1, .load "a" 1]
          .init) "a") := by
  refine ⟨?_, by decide, by decide, by decide⟩
  intro op hop
  fin_cases hop <;> constructor <;> norm_num

/-- Witness for C6 (amended) on a concrete sequence for backend `a`. -/
theorem metrics_counters_monotone_witness :
    counterLE MetricsCollector.init.globalMetrics
      (runMetricsOps [.load "a" 2, .exec "a" 3 true 1, .exec "a" 4 false 2]
        MetricsCollector.init).globalMetrics ∧
    counterLE (backendCounters MetricsCollector.init "b")
      (backendCounters
        (runMetricsOps [.load "a" 2, .exec "a" 3 true 1, .exec "a" 4 false 2]
          MetricsCollector.init) "b") :=
  ⟨(metrics_counters_monotone [.load "a" 2, .exec "a" 3 true 1, .exec "a" 4 false 2]
      MetricsCollector.init (by decide)).1,
    (metrics_counters_monotone [.load "a" 2, .exec "a" 3 true 1, .exec "a" 4 false 2]
      MetricsCollector.init (by decide)).2 "b" (by decide)⟩

theorem splitLinesChars_ne_nil (l : List Char) : splitLinesChars l ≠ [] := by
  induction l with
  | nil => simp [splitLinesChars]
  | cons c cs ih =>
      by_cases h : c = '\n'
      · simp [splitLinesChars, h]
      · simp only [splitLinesChars, if_neg h]
        cases hs : splitLinesChars cs with
        | nil => simp
        | cons a as => simp

theorem splitLinesChars_noNLine (l : List Char) (h : '\n' ∉ l) :
    splitLinesChars l = [l] := by
  induction l with
  | nil => rfl
  | cons c cs ih =>
      have hc : ¬ c = '\n' := fun hh => h (hh ▸ List.mem_cons_self c cs)
      have hcs : '\n' ∉ cs := fun hh => h (List.mem_cons_of_mem c hh)
      simp only [splitLinesChars, if_neg hc, ih hcs]

theorem splitLinesChars_append (a b : List Char) (h : '\n' ∉ a) :
    splitLinesChars (a ++ b) =
      (a ++ (splitLinesChars b).headD []) :: (splitLinesChars b).tail := by
  induction a with
  | nil =>
      simp only [List.nil_append]
      cases hb : splitLinesChars b with
      | nil => exact absurd hb (splitLinesChars_ne_nil b)
      | cons x xs => simp
  | cons c cs ih =>
      have hc : ¬ c = '\n' := fun hh => h (hh ▸ List.mem_cons_self c cs)
      have hcs : '\n' ∉ cs := fun hh => h (List.mem_cons_of_mem c hh)
      simp only [List.cons_append, splitLinesChars, if_neg hc, List.append_eq,
        ih hcs]

theorem splitLinesChars_glue (a b : List Char) (h : '\n' ∉ a) :
    splitLinesChars (a ++ '\n' :: b) = a :: splitLinesChars b := by
  rw [splitLinesChars_append a _ h]
  simp [splitLinesChars]

theorem splitLinesChars_unlines (ls : List (List Char)) (h1 : ls ≠ [])
    (h2 : ∀ l ∈ ls, '\n' ∉ l) : splitLinesChars (unlines ls) = ls := by
  induction ls with
  | nil => exact absurd rfl h1
  | cons l rest ih =>
      cases rest with
      | nil =>
          exact splitLinesChars_noNLine l (h2 l (List.mem_cons_self l []))
      | cons l2 rest2 =>
          have hu : unlines (l :: l2 :: rest2) = l ++ '\n' :: unlines (l2 :: rest2) := rfl
          rw [hu, splitLinesChars_glue _ _ (h2 l (List.mem_cons_self l _))]
          rw [ih (by simp) (fun x hx => h2 x (List.mem_cons_of_mem l hx))]

theorem unlines_append (l₁ l₂ : List (List Char)) (h1 : l₁ ≠ []) (h2 : l₂ ≠ []) :
    unlines (l₁ ++ l₂) = unlines l₁ ++ '\n' :: unlines l₂ := by
  induction l₁ with
  | nil => exact absurd rfl h1
  | cons x xs ih =>
      cases xs with
      | nil =>
          cases l₂ with
          | nil => exact absurd rfl h2
          | cons y ys => simp [unlines]
      | cons x2 xs2 =>
          have e1 : (x :: x2 :: xs2) ++ l₂ = x :: ((x2 :: xs2) ++ l₂) := rfl
          have e2 : (x2 :: xs2) ++ l₂ = x2 :: (xs2 ++ l₂) := rfl
          rw [e1, e2]
          have e3 : unlines (x :: x2 :: (xs2 ++ l₂)) =
              x ++ '\n' :: unlines (x2 :: (xs2 ++ l₂)) := rfl
          have e4 : unlines (x :: x2 :: xs2) = x ++ '\n' :: unlines (x2 :: xs2) := rfl
          rw [e3, ← e2, ih (by simp), e4]
          simp

theorem joinLineBlocks_ne_nil (bs : List (List (List Char)))
    (h : ∀ b ∈ bs, b ≠ []) : joinLineBlocks bs ≠ [] := by
  cases bs with
  | nil => simp [joinLineBlocks]
  | cons b rest =>
      cases rest with
      | nil => exact h b (List.mem_cons_self b [])
      | cons b2 rest2 =>
          have hb : b ≠ [] := h b (List.mem_cons_self b _)
          simp only [joinLineBlocks]
          intro hc
          exact hb (List.append_eq_nil.mp hc).1

theorem joinLineBlocksSep_ne_nil (bs : List (List (List Char)))
    (h : ∀ b ∈ bs, b ≠ []) : joinLineBlocksSep bs ≠ [] := by
  cases bs with
  | nil => simp [joinLineBlocksSep]
  | cons b rest =>
      cases rest with
      | nil => exact h b (List.mem_cons_self b [])
      | cons b2 rest2 =>
          have hb : b ≠ [] := h b (List.mem_cons_self b _)
          simp only [joinLineBlocksSep]
          intro hc
          exact hb (List.append_eq_nil.mp hc).1

theorem joinSep_nl_data {α : Type} (f : α → String) (g : α → List (List Char))
    (l : List α) (h : ∀ x ∈ l, (f x).data = unlines (g x) ∧ g x ≠ []) :
    (joinSep "\n" (l.map f)).data = unlines (joinLineBlocks (l.map g)) := by
  induction l with
  | nil => rfl
  | cons x xs ih =>
      cases xs with
      | nil => exact (h x (List.mem_cons_self x [])).1
      | cons y ys =>
          have hx := h x (List.mem_cons_self x _)
          have hrest : ∀ z ∈ y :: ys, (f z).data = unlines (g z) ∧ g z ≠ [] :=
            fun z hz => h z (List.mem_cons_of_mem x hz)
          have e1 : joinSep "\n" ((x :: y :: ys).map f) =
              f x ++ "\n" ++ joinSep "\n" ((y :: ys).map f) := rfl
          have e2 : joinLineBlocks ((x :: y :: ys).map g) =
              g x ++ joinLineBlocks ((y :: ys).map g) := rfl
          rw [e1, e2]
          have hgs : ∀ b ∈ (y :: ys).map g, b ≠ [] := by
            intro b hb
            rcases List.mem_map.mp hb with ⟨z, hz, hbz⟩
            exact hbz ▸ (hrest z hz).2
          rw [unlines_append (g x) _ hx.2 (joinLineBlocks_ne_nil _ hgs)]
          rw [← ih hrest, ← hx.1]
          simp

theorem joinSep_nl2_data {α : Type} (f : α → String) (g : α → List (List Char))
    (l : List α) (h : ∀ x ∈ l, (f x).data = unlines (g x) ∧ g x ≠ []) :
    (joinSep "\n\n" (l.map f)).data = unlines (joinLineBlocksSep (l.map g)) := by
  induction l with
  | nil => rfl
  | cons x xs ih =>
      cases xs with
      | nil => exact (h x (List.mem_cons_self x [])).1
      | cons y ys =>
          have hx := h x (List.mem_cons_self x _)
          have hrest : ∀ z ∈ y :: ys, (f z).data = unlines (g z) ∧ g z ≠ [] :=
            fun z hz => h z (List.mem_cons_of_mem x hz)
          have e1 : joinSep "\n\n" ((x :: y :: ys).map f) =
              f x ++ "\n\n" ++ joinSep "\n\n" ((y :: ys).map f) := rfl
          have e2 : joinLineBlocksSep ((x :: y :: ys).map g) =
              g x ++ [] :: joinLineBlocksSep ((y :: ys).map g) := rfl
          rw [e1, e2]
          have hgs : ∀ b ∈ (y :: ys).map g, b ≠ [] := by
            intro b hb
            rcases List.mem_map.mp hb with ⟨z, hz, hbz⟩
            exact hbz ▸ (hrest z hz).2
          have hsep : ([] :: joinLineBlocksSep ((y :: ys).map g) :
              List (List Char)) ≠ [] := by simp
          rw [unlines_append (g x) _ hx.2 hsep]
          have e3 : unlines ([] :: joinLineBlocksSep ((y :: ys).map g)) =
              [] ++ '\n' :: unlines (joinLineBlocksSep ((y :: ys).map g)) := by
            cases hj : joinLineBlocksSep ((y :: ys).map g) with
            | nil => exact absurd hj (joinLineBlocksSep_ne_nil _ hgs)
            | cons a as => rfl
          rw [e3, ← ih hrest, ← hx.1]
          simp

theorem unlines_cons_ne (a : List Char) (ls : List (List Char)) (h : ls ≠ []) :
    unlines (a :: ls) = a ++ '\n' :: unlines ls := by
  cases ls with
  | nil => exact absurd rfl h
  | cons b bs => rfl

theorem dataS1 : ("\n  /**\n   * " : String).data =
    '\n' :: ("  /**".data ++ '\n' :: "   * ".data) := by decide

theorem dataS2 : ("\n   */\n  " : String).data =
    '\n' :: ("   */".data ++ '\n' :: "  ".data) := by decide

theorem dataS3 : ("\n  " : String).data = '\n' :: "  ".data := by decide

theorem dataM1 : ("Input) => Promise<" : String).data =
    "Input".data ++ ") => Promise<".data := by decide

theorem dataM2 : ("Output>;" : String).data = "Output".data ++ ">;".data := by
  decide

theorem fieldString_data (required : List String)
    (kv : String × JSONSchemaProperty) :
    (fieldString required kv).data = unlines (fieldBlock required kv) := by
  by_cases hd : strTruthy kv.2.description = true
  · simp only [fieldString, fieldBlock, if_pos hd, fieldMainLine, unlines,
      String.data_append, dataS1, dataS2, List.append_assoc, List.cons_append,
      List.nil_append]
  · simp only [fieldString, fieldBlock, if_neg hd, fieldMainLine, unlines,
      String.data_append, dataS3, List.append_assoc, List.cons_append,
      List.nil_append]

theorem methodString_data (t : MCPTool) :
    (methodString t).data = unlines (methodBlock t) := by
  by_cases hd : strTruthy t.description = true
  · simp only [methodString, methodBlock, if_pos hd, expectedMethodLine, unlines,
      String.data_append, dataS1, dataS2, dataM1, dataM2, List.append_assoc,
      List.cons_append, List.nil_append]
  · simp only [methodString, methodBlock, if_neg hd, expectedMethodLine, unlines,
      String.data_append, dataS3, dataM1, dataM2, List.append_assoc,
      List.cons_append, List.nil_append]

theorem fieldBlock_ne_nil (required : List String)
    (kv : String × JSONSchemaProperty) : fieldBlock required kv ≠ [] := by
  unfold fieldBlock
  split <;> simp

theorem methodBlock_ne_nil (t : MCPTool) : methodBlock t ≠ [] := by
  unfold methodBlock
  split <;> simp

theorem interfaceBlock_ne_nil (t : MCPTool) : interfaceBlock t ≠ [] := by
  simp [interfaceBlock]

theorem dataS4 : (" \x7b\n" : String).data = " \x7b".data ++ ['\n'] := by decide

theorem dataS5 : ("\n\x7d\n\ninterface " : String).data =
    '\n' :: ("\x7d".data ++ '\n' :: ('\n' :: "interface ".data)) := by decide

theorem dataS6 : (" \x7b\n  [key: string]: unknown;\n\x7d" : String).data =
    " \x7b".data ++ '\n' :: ("  [key: string]: unknown;".data ++ '\n' :: "\x7d".data) := by
  decide

theorem generateInterfaceForTool_data (t : MCPTool) :
    (generateInterfaceForTool t).data = unlines (interfaceBlock t) := by
  have hfb : ∀ kv ∈ t.inputSchema.properties.getD [],
      (fieldString (t.inputSchema.required.getD []) kv).data =
        unlines (fieldBlock (t.inputSchema.required.getD []) kv) ∧
        fieldBlock (t.inputSchema.required.getD []) kv ≠ [] :=
    fun kv _ => ⟨fieldString_data _ kv, fieldBlock_ne_nil _ kv⟩
  have hjoin := joinSep_nl_data (fieldString (t.inputSchema.required.getD []))
    (fieldBlock (t.inputSchema.required.getD []))
    (t.inputSchema.properties.getD []) hfb
  have hne : ∀ b ∈ (t.inputSchema.properties.getD []).map
      (fieldBlock (t.inputSchema.required.getD [])), b ≠ [] := by
    intro b hb
    rcases List.mem_map.mp hb with ⟨kv, _, hbk⟩
    exact hbk ▸ fieldBlock_ne_nil _ kv
  have hJLB := joinLineBlocks_ne_nil _ hne
  rw [interfaceBlock,
    unlines_cons_ne _ _ (by
      intro hc
      exact hJLB (List.append_eq_nil.mp hc).1),
    unlines_append _ _ hJLB (by simp)]
  simp only [generateInterfaceForTool, String.data_append, hjoin, unlines,
    dataS4, dataS5, dataS6, List.append_assoc, List.cons_append,
    List.singleton_append, List.nil_append]

theorem generateAPIObject_data (tools : List MCPTool) :
    (generateAPIObject tools).data = unlines (apiBlock tools) := by
  have hmb : ∀ t ∈ tools, (methodString t).data = unlines (methodBlock t) ∧
      methodBlock t ≠ [] :=
    fun t _ => ⟨methodString_data t, methodBlock_ne_nil t⟩
  have hjoin := joinSep_nl_data methodString methodBlock tools hmb
  have hne : ∀ b ∈ tools.map methodBlock, b ≠ [] := by
    intro b hb
    rcases List.mem_map.mp hb with ⟨t, _, hbt⟩
    exact hbt ▸ methodBlock_ne_nil t
  have hJLB := joinLineBlocks_ne_nil _ hne
  rw [apiBlock,
    unlines_cons_ne _ _ (by
      intro hc
      exact hJLB (List.append_eq_nil.mp hc).1),
    unlines_append _ _ hJLB (by simp)]
  simp only [generateAPIObject, String.data_append, hjoin, unlines,
    List.append_assoc, List.cons_append, List.singleton_append, List.nil_append,
    show ("declare const mcp: \x7b\n" : String).data =
      "declare const mcp: \x7b".data ++ ['\n'] from by decide,
    show ("\n\x7d;" : String).data = '\n' :: "\x7d;".data from by decide]

theorem convertToTypeScript_data (tools : List MCPTool) :
    (convertToTypeScript tools).data = unlines (outputBlock tools) := by
  have hib : ∀ t ∈ tools, (generateInterfaceForTool t).data =
      unlines (interfaceBlock t) ∧ interfaceBlock t ≠ [] :=
    fun t _ => ⟨generateInterfaceForTool_data t, interfaceBlock_ne_nil t⟩
  have hjoin := joinSep_nl2_data generateInterfaceForTool interfaceBlock tools hib
  have hne : ∀ b ∈ tools.map interfaceBlock, b ≠ [] := by
    intro b hb
    rcases List.mem_map.mp hb with ⟨t, _, hbt⟩
    exact hbt ▸ interfaceBlock_ne_nil t
  have hJLBS := joinLineBlocksSep_ne_nil _ hne
  have hapi : apiBlock tools ≠ [] := by simp [apiBlock]
  rw [outputBlock, unlines_append _ _ hJLBS (by simp),
    unlines_cons_ne _ _ hapi]
  simp only [convertToTypeScript, String.data_append, hjoin,
    generateAPIObject_data, List.append_assoc, List.cons_append,
    List.singleton_append, List.nil_append,
    show ("\n\n" : String).data = '\n' :: ['\n'] from by decide]

theorem char_toUpper_eq_newline {c : Char} (h : c.toUpper = '\n') : c = '\n' := by
  by_cases hcond : c.toNat ≥ 97 ∧ c.toNat ≤ 122
  · exfalso
    have hup : c.toUpper = Char.ofNat (c.toNat - 32) := by
      show (if c.toNat ≥ 97 ∧ c.toNat ≤ 122 then Char.ofNat (c.toNat - 32) else c) = _
      rw [if_pos hcond]
    have h1 : (Char.ofNat (c.toNat - 32)).toNat = c.toNat - 32 := by
      rw [Char.ofNat, dif_pos (Or.inl (by omega : c.toNat - 32 < 55296))]
      rfl
    have h2 := congrArg Char.toNat (hup ▸ h : Char.ofNat (c.toNat - 32) = '\n')
    rw [h1] at h2
    have h3 : ('\n').toNat = 10 := by decide
    omega
  · have hup : c.toUpper = c := by
      show (if c.toNat ≥ 97 ∧ c.toNat ≤ 122 then Char.ofNat (c.toNat - 32) else c) = c
      rw [if_neg hcond]
    exact hup ▸ h

theorem splitOnSep_ne_nil (l : List Char) : splitOnSep l ≠ [] := by
  induction l with
  | nil => simp [splitOnSep]
  | cons c cs ih =>
      by_cases h : isSepChar c = true
      · simp [splitOnSep, h]
      · simp only [splitOnSep, if_neg h]
        cases hs : splitOnSep cs with
        | nil => simp
        | cons a as => simp

theorem mem_of_mem_splitOnSep {c : Char} {x : List Char} {l : List Char}
    (hx : x ∈ splitOnSep l) (hc : c ∈ x) : c ∈ l := by
  induction l generalizing x with
  | nil =>
      simp [splitOnSep] at hx
      subst hx
      simp at hc
  | cons a as ih =>
      by_cases h : isSepChar a = true
      · simp only [splitOnSep, if_pos h, List.mem_cons] at hx
        rcases hx with hx | hx
        · subst hx
          simp at hc
        · exact List.mem_cons_of_mem a (ih hx hc)
      · simp only [splitOnSep, if_neg h] at hx
        cases hs : splitOnSep as with
        | nil => exact absurd hs (splitOnSep_ne_nil as)
        | cons y ys =>
            rw [hs] at hx
            rcases List.mem_cons.mp hx with hx | hx
            · subst hx
              rcases List.mem_cons.mp hc with hc | hc
              · exact hc ▸ List.mem_cons_self a as
              · exact List.mem_cons_of_mem a
                  (ih (hs ▸ List.mem_cons_self y ys) hc)
            · exact List.mem_cons_of_mem a
                (ih (hs ▸ List.mem_cons_of_mem y hx) hc)

theorem mem_capitalizeChars {c : Char} {w : List Char}
    (h : c ∈ capitalizeChars w) : c ∈ w ∨ ∃ c' ∈ w, c = c'.toUpper := by
  cases w with
  | nil => simp [capitalizeChars] at h
  | cons a as =>
      rcases List.mem_cons.mp h with h | h
      · exact Or.inr ⟨a, List.mem_cons_self a as, h⟩
      · exact Or.inl (List.mem_cons_of_mem a h)

theorem toPascalCase_noNL (s : String) (h : '\n' ∉ s.data) :
    '\n' ∉ (toPascalCase s).data := by
  intro hc
  have hc' : ('\n' : Char) ∈ ((splitOnSep s.data).map capitalizeChars).flatten := hc
  rcases List.mem_flatten.mp hc' with ⟨w, hw, hcw⟩
  rcases List.mem_map.mp hw with ⟨x, hx, hxw⟩
  rcases mem_capitalizeChars (hxw ▸ hcw) with hm | ⟨c', hc'x, hcu⟩
  · exact h (mem_of_mem_splitOnSep hx hm)
  · have : c' = '\n' := char_toUpper_eq_newline hcu.symm
    exact h (mem_of_mem_splitOnSep hx (this ▸ hc'x))

theorem noNL_spec {s : String} (h : noNL s = true) : '\n' ∉ s.data := by
  simpa [noNL, List.contains] using h

theorem noNL_joinSep (sep : String) (l : List String) (hsep : '\n' ∉ sep.data)
    (h : ∀ x ∈ l, '\n' ∉ x.data) : '\n' ∉ (joinSep sep l).data := by
  induction l with
  | nil => simp [joinSep]
  | cons x xs ih =>
      cases xs with
      | nil => exact h x (List.mem_cons_self x [])
      | cons y ys =>
          have e : joinSep sep (x :: y :: ys) = x ++ sep ++ joinSep sep (y :: ys) := rfl
          rw [e]
          intro hc
          simp only [String.data_append, List.mem_append] at hc
          rcases hc with (hc | hc) | hc
          · exact h x (List.mem_cons_self x _) hc
          · exact hsep hc
          · exact ih (fun z hz => h z (List.mem_cons_of_mem x hz)) hc

theorem jsonSchemaToTypeScript_noNL_fuel (n : Nat) :
    ∀ (s : JSONSchemaProperty), sizeOf s ≤ n → schemaKeysNoNL s = true →
      '\n' ∉ (jsonSchemaToTypeScript s).data := by
  induction n with
  | zero =>
      intro s hs _
      exfalso
      cases s with
      | mk t d i p r =>
          simp at hs
  | succ n ih =>
      intro s hs hkeys
      cases s with
      | mk t d i p r =>
          rw [jsonSchemaToTypeScript.eq_def]
          cases t with
          | none =>
              dsimp only
              decide
          | some ty =>
              dsimp only
              by_cases h1 : ty = "string"
              · rw [if_pos h1]
                decide
              rw [if_neg h1]
              by_cases h2 : ty = "number"
              · rw [if_pos h2]
                decide
              rw [if_neg h2]
              by_cases h3 : ty = "integer"
              · rw [if_pos h3]
                decide
              rw [if_neg h3]
              by_cases h4 : ty = "boolean"
              · rw [if_pos h4]
                decide
              rw [if_neg h4]
              by_cases h5 : ty = "array"
              · rw [if_pos h5]
                cases i with
                | none =>
                    dsimp only
                    intro hc
                    simp only [String.data_append] at hc
                    rcases List.mem_append.mp hc with hc | hc <;> revert hc <;> decide
                | some s' =>
                    dsimp only
                    have hk' : schemaKeysNoNL s' = true := by
                      rw [schemaKeysNoNL.eq_def] at hkeys
                      exact (Bool.and_eq_true_iff.mp hkeys).1
                    have hsz : sizeOf s' ≤ n := by
                      have : sizeOf (JSONSchemaProperty.mk (some ty) d (some s') p r) ≤ n + 1 := hs
                      simp at this
                      omega
                    intro hc
                    simp only [String.data_append] at hc
                    rcases List.mem_append.mp hc with hc | hc
                    · exact ih s' hsz hk' hc
                    · revert hc
                      decide
              rw [if_neg h5]
              by_cases h6 : ty = "object"
              · rw [if_pos h6]
                cases p with
                | none =>
                    dsimp only
                    decide
                | some properties =>
                    dsimp only
                    have hall : ∀ pr ∈ properties.attach,
                        (noNL pr.1.1 && schemaKeysNoNL pr.1.2) = true := by
                      rw [schemaKeysNoNL.eq_def] at hkeys
                      have := (Bool.and_eq_true_iff.mp hkeys).2
                      exact fun pr hpr => List.all_eq_true.mp this pr hpr
                    intro hc
                    simp only [String.data_append, List.append_assoc,
                      List.mem_append] at hc
                    rcases hc with hc | hc | hc
                    · revert hc
                      decide
                    · refine noNL_joinSep "; " _ (by decide) ?_ hc
                      intro x hx
                      rcases List.mem_map.mp hx with ⟨pr, hpr, hxpr⟩
                      have hprc := hall pr hpr
                      have hkey : '\n' ∉ pr.1.1.data :=
                        noNL_spec (Bool.and_eq_true_iff.mp hprc).1
                      have hkeys2 : schemaKeysNoNL pr.1.2 = true :=
                        (Bool.and_eq_true_iff.mp hprc).2
                      have hszpr : sizeOf pr.1.2 ≤ n := by
                        have hmem := List.sizeOf_lt_of_mem pr.2
                        have hps : sizeOf pr.1 = 1 + sizeOf pr.1.1 + sizeOf pr.1.2 := by
                          rcases pr.1 with ⟨a, b⟩
                          simp
                        have hbig : sizeOf (JSONSchemaProperty.mk (some ty) d i
                            (some properties) r) ≤ n + 1 := hs
                        simp at hbig
                        omega
                      rw [← hxpr]
                      intro hcx
                      simp only [String.data_append, List.append_assoc,
                        List.mem_append] at hcx
                      rcases hcx with hcx | hcx | hcx | hcx
                      · exact hkey hcx
                      · revert hcx
                        rcases hop : (r.getD []).contains pr.1.1 <;> simp
                      · revert hcx
                        decide
                      · exact ih pr.1.2 hszpr hkeys2 hcx
                    · revert hc
                      decide
              rw [if_neg h6]
              decide

theorem jsonSchemaToTypeScript_noNL (s : JSONSchemaProperty)
    (h : schemaKeysNoNL s = true) : '\n' ∉ (jsonSchemaToTypeScript s).data :=
  jsonSchemaToTypeScript_noNL_fuel (sizeOf s) s (le_refl _) h

theorem toolSane_name {t : MCPTool} (h : toolSane t = true) : noNL t.name = true :=
  (Bool.and_eq_true_iff.mp (Bool.and_eq_true_iff.mp h).1).1

theorem toolSane_desc {t : MCPTool} (h : toolSane t = true) :
    optNoNL t.description = true := by
  have h2 := (Bool.and_eq_true_iff.mp (Bool.and_eq_true_iff.mp h).1).2
  cases hd : t.description with
  | none => rfl
  | some d =>
      rw [hd] at h2
      have h3 : noNL d = true := (Bool.and_eq_true_iff.mp h2).1
      show optNoNL (some d) = true
      exact h3

theorem toolSane_desc_suffix {t : MCPTool} {d : String} (h : toolSane t = true)
    (hd : t.description = some d) : (">;".data.isSuffixOf d.data) = false := by
  have h2 := (Bool.and_eq_true_iff.mp (Bool.and_eq_true_iff.mp h).1).2
  rw [hd] at h2
  have h3 := (Bool.and_eq_true_iff.mp h2).2
  cases hb : ">;".data.isSuffixOf d.data
  · rfl
  · rw [hb] at h3
    simp at h3

theorem toolSane_props {t : MCPTool} (h : toolSane t = true) :
    ∀ kv ∈ t.inputSchema.properties.getD [],
      (noNL kv.1 && (optNoNL kv.2.description && schemaKeysNoNL kv.2)) = true := by
  have h2 := (Bool.and_eq_true_iff.mp h).2
  cases hp : t.inputSchema.properties with
  | none =>
      intro kv hkv
      simp at hkv
  | some l =>
      rw [hp] at h2
      have h2l : l.all (fun kv =>
          noNL kv.1 && optNoNL kv.2.description && schemaKeysNoNL kv.2) = true := h2
      intro kv hkv
      simp only [Option.getD_some] at hkv
      have h3 := List.all_eq_true.mp h2l kv hkv
      simp only [Bool.and_eq_true] at h3
      simp [h3.1.1, h3.1.2, h3.2]

theorem fieldMainLine_noNL (required : List String)
    (kv : String × JSONSchemaProperty) (hkey : noNL kv.1 = true)
    (hkeys : schemaKeysNoNL kv.2 = true) : '\n' ∉ fieldMainLine required kv := by
  intro hc
  simp only [fieldMainLine, String.data_append, List.append_assoc,
    List.mem_append] at hc
  rcases hc with hc | hc | hc | hc | hc | hc
  · revert hc
    decide
  · exact noNL_spec hkey hc
  · revert hc
    rcases (!(required.contains kv.1)) <;> simp
  · revert hc
    decide
  · exact jsonSchemaToTypeScript_noNL kv.2 hkeys hc
  · revert hc
    decide

theorem fieldBlock_noNL (required : List String)
    (kv : String × JSONSchemaProperty) (hkey : noNL kv.1 = true)
    (hdesc : optNoNL kv.2.description = true)
    (hkeys : schemaKeysNoNL kv.2 = true) :
    ∀ l ∈ fieldBlock required kv, '\n' ∉ l := by
  intro l hl
  unfold fieldBlock at hl
  have hdl : '\n' ∉ "   * ".data ++ (kv.2.description.getD "").data := by
    intro hc
    rcases List.mem_append.mp hc with hc | hc
    · revert hc
      decide
    · cases hd : kv.2.description with
      | none =>
          rw [hd] at hc
          simp at hc
      | some dd =>
          rw [hd] at hc
          have h2 := hdesc
          rw [hd] at h2
          have h3 : noNL dd = true := h2
          exact noNL_spec h3 hc
  split at hl <;> simp only [List.mem_cons, List.not_mem_nil, or_false] at hl
  · rcases hl with hl | hl | hl | hl | hl <;> subst hl
    · simp
    · decide
    · exact hdl
    · decide
    · exact fieldMainLine_noNL required kv hkey hkeys
  · rcases hl with hl | hl <;> subst hl
    · simp
    · exact fieldMainLine_noNL required kv hkey hkeys

theorem expectedMethodLine_noNL (t : MCPTool) (hname : noNL t.name = true) :
    '\n' ∉ expectedMethodLine t := by
  intro hc
  simp only [expectedMethodLine, String.data_append, List.append_assoc,
    List.mem_append] at hc
  rcases hc with hc | hc | hc | hc | hc | hc | hc
  · revert hc
    decide
  · exact noNL_spec hname hc
  · revert hc
    decide
  · exact toPascalCase_noNL t.name (noNL_spec hname) hc
  · revert hc
    decide
  · exact toPascalCase_noNL t.name (noNL_spec hname) hc
  · revert hc
    decide

theorem methodBlock_noNL (t : MCPTool) (hname : noNL t.name = true)
    (hdesc : optNoNL t.description = true) :
    ∀ l ∈ methodBlock t, '\n' ∉ l := by
  intro l hl
  unfold methodBlock at hl
  have hdl : '\n' ∉ "   * ".data ++ (t.description.getD "").data := by
    intro hc
    rcases List.mem_append.mp hc with hc | hc
    · revert hc
      decide
    · cases hd : t.description with
      | none =>
          rw [hd] at hc
          simp at hc
      | some dd =>
          rw [hd] at hc
          have h2 := hdesc
          rw [hd] at h2
          have h3 : noNL dd = true := h2
          exact noNL_spec h3 hc
  split at hl <;> simp only [List.mem_cons, List.not_mem_nil, or_false] at hl
  · rcases hl with hl | hl | hl | hl | hl <;> subst hl
    · simp
    · decide
    · exact hdl
    · decide
    · exact expectedMethodLine_noNL t hname
  · rcases hl with hl | hl <;> subst hl
    · simp
    · exact expectedMethodLine_noNL t hname

theorem mem_joinLineBlocks {l : List Char} {bs : List (List (List Char))}
    (h : l ∈ joinLineBlocks bs) : l = [] ∨ ∃ b ∈ bs, l ∈ b := by
  induction bs with
  | nil =>
      simp [joinLineBlocks] at h
      exact Or.inl h
  | cons b rest ih =>
      cases rest with
      | nil => exact Or.inr ⟨b, List.mem_cons_self b [], h⟩
      | cons b2 rest2 =>
          rw [show joinLineBlocks (b :: b2 :: rest2) =
            b ++ joinLineBlocks (b2 :: rest2) from rfl] at h
          rcases List.mem_append.mp h with h | h
          · exact Or.inr ⟨b, List.mem_cons_self b _, h⟩
          · rcases ih h with h | ⟨b', hb', hlb'⟩
            · exact Or.inl h
            · exact Or.inr ⟨b', List.mem_cons_of_mem b hb', hlb'⟩

theorem mem_joinLineBlocksSep {l : List Char} {bs : List (List (List Char))}
    (h : l ∈ joinLineBlocksSep bs) : l = [] ∨ ∃ b ∈ bs, l ∈ b := by
  induction bs with
  | nil =>
      simp [joinLineBlocksSep] at h
      exact Or.inl h
  | cons b rest ih =>
      cases rest with
      | nil => exact Or.inr ⟨b, List.mem_cons_self b [], h⟩
      | cons b2 rest2 =>
          rw [show joinLineBlocksSep (b :: b2 :: rest2) =
            b ++ [] :: joinLineBlocksSep (b2 :: rest2) from rfl] at h
          rcases List.mem_append.mp h with h | h
          · exact Or.inr ⟨b, List.mem_cons_self b _, h⟩
          · rcases List.mem_cons.mp h with h | h
            · exact Or.inl h
            · rcases ih h with h | ⟨b', hb', hlb'⟩
              · exact Or.inl h
              · exact Or.inr ⟨b', List.mem_cons_of_mem b hb', hlb'⟩

theorem interfaceBlock_noNL (t : MCPTool) (hsane : toolSane t = true) :
    ∀ l ∈ interfaceBlock t, '\n' ∉ l := by
  intro l hl
  have hname := toolSane_name hsane
  have hpascal : '\n' ∉ (toPascalCase t.name).data :=
    toPascalCase_noNL t.name (noNL_spec hname)
  have hhdr : ∀ (suffix : String), '\n' ∉ suffix.data →
      '\n' ∉ ("interface " ++ (toPascalCase t.name ++ suffix) ++ " \x7b").data := by
    intro sfx hs hc
    simp only [String.data_append, List.append_assoc, List.mem_append] at hc
    rcases hc with hc | hc | hc | hc
    · revert hc
      decide
    · exact hpascal hc
    · exact hs hc
    · revert hc
      decide
  rcases List.mem_cons.mp hl with hl | hl
  · exact hl ▸ hhdr "Input" (by decide)
  rcases List.mem_append.mp hl with hl | hl
  · rcases mem_joinLineBlocks hl with hl | ⟨b, hb, hlb⟩
    · subst hl
      simp
    · rcases List.mem_map.mp hb with ⟨kv, hkv, hbkv⟩
      have hp := toolSane_props hsane kv hkv
      simp only [Bool.and_eq_true] at hp
      exact fieldBlock_noNL _ kv hp.1 hp.2.1 hp.2.2 l (hbkv ▸ hlb)
  · simp only [List.mem_cons, List.not_mem_nil, or_false] at hl
    rcases hl with hl | hl | hl | hl | hl <;> subst hl
    · decide
    · simp
    · exact hhdr "Output" (by decide)
    · decide
    · decide

theorem apiBlock_noNL (tools : List MCPTool)
    (h : ∀ t ∈ tools, toolSane t = true) :
    ∀ l ∈ apiBlock tools, '\n' ∉ l := by
  intro l hl
  rcases List.mem_cons.mp hl with hl | hl
  · subst hl
    decide
  rcases List.mem_append.mp hl with hl | hl
  · rcases mem_joinLineBlocks hl with hl | ⟨b, hb, hlb⟩
    · subst hl
      simp
    · rcases List.mem_map.mp hb with ⟨t, ht, hbt⟩
      exact methodBlock_noNL t (toolSane_name (h t ht))
        (toolSane_desc (h t ht)) l (hbt ▸ hlb)
  · simp only [List.mem_cons, List.not_mem_nil, or_false] at hl
    subst hl
    decide

theorem outputBlock_noNL (tools : List MCPTool)
    (h : ∀ t ∈ tools, toolSane t = true) :
    ∀ l ∈ outputBlock tools, '\n' ∉ l := by
  intro l hl
  rcases List.mem_append.mp hl with hl | hl
  · rcases mem_joinLineBlocksSep hl with hl | ⟨b, hb, hlb⟩
    · subst hl
      simp
    · rcases List.mem_map.mp hb with ⟨t, ht, hbt⟩
      exact interfaceBlock_noNL t (h t ht) l (hbt ▸ hlb)
  · rcases List.mem_cons.mp hl with hl | hl
    · subst hl
      simp
    · exact apiBlock_noNL tools h l hl

theorem linesOf_convertToTypeScript (tools : List MCPTool)
    (h : ∀ t ∈ tools, toolSane t = true) :
    linesOf (convertToTypeScript tools) = outputBlock tools := by
  rw [linesOf, convertToTypeScript_data,
    splitLinesChars_unlines _ (by simp [outputBlock]) (outputBlock_noNL tools h)]

theorem filter_joinLineBlocks (p : List Char → Bool) (hp : p [] = false)
    (bs : List (List (List Char))) :
    (joinLineBlocks bs).filter p = (bs.map (List.filter p)).flatten := by
  induction bs with
  | nil => simp [joinLineBlocks, List.filter, hp]
  | cons b rest ih =>
      cases rest with
      | nil => simp [joinLineBlocks]
      | cons b2 rest2 =>
          rw [show joinLineBlocks (b :: b2 :: rest2) =
            b ++ joinLineBlocks (b2 :: rest2) from rfl, List.filter_append, ih]
          simp

theorem filter_joinLineBlocksSep (p : List Char → Bool) (hp : p [] = false)
    (bs : List (List (List Char))) :
    (joinLineBlocksSep bs).filter p = (bs.map (List.filter p)).flatten := by
  induction bs with
  | nil => simp [joinLineBlocksSep, List.filter, hp]
  | cons b rest ih =>
      cases rest with
      | nil => simp [joinLineBlocksSep]
      | cons b2 rest2 =>
          rw [show joinLineBlocksSep (b :: b2 :: rest2) =
            b ++ [] :: joinLineBlocksSep (b2 :: rest2) from rfl,
            List.filter_append, List.filter_cons_of_neg (by simp [hp]), ih]
          simp

theorem flatten_map_nil {α : Type} (l : List α) :
    (l.map (fun _ => ([] : List (List Char)))).flatten = [] := by
  induction l with
  | nil => rfl
  | cons x xs ih =>
      simp only [List.map_cons, List.flatten_cons, List.nil_append]
      exact ih

theorem flatten_map_singleton {α : Type} (f : α → List Char) (l : List α) :
    (l.map (fun x => [f x])).flatten = l.map f := by
  induction l with
  | nil => rfl
  | cons x xs ih =>
      simp only [List.map_cons, List.flatten_cons, List.singleton_append, ih]

theorem isPrefixOf_self_append (l t : List Char) : l.isPrefixOf (l ++ t) = true := by
  rw [List.isPrefixOf_iff_prefix]
  exact List.prefix_append l t

theorem ifcP_of_append (x y : String) :
    "interface ".data.isPrefixOf ("interface " ++ x ++ y).data = true := by
  simp only [String.data_append, List.append_assoc]
  exact isPrefixOf_self_append _ _

theorem filter_ifc_fieldBlock (required : List String)
    (kv : String × JSONSchemaProperty) :
    (fieldBlock required kv).filter
      (fun l => "interface ".data.isPrefixOf l) = [] := by
  unfold fieldBlock
  split <;> rfl

theorem filter_ifc_interfaceBlock (t : MCPTool) :
    (interfaceBlock t).filter (fun l => "interface ".data.isPrefixOf l) =
      expectedInterfaceHeaders t := by
  unfold interfaceBlock expectedInterfaceHeaders
  rw [List.filter_cons_of_pos (ifcP_of_append (toPascalCase t.name ++ "Input") " \x7b"),
    List.filter_append, filter_joinLineBlocks _ (by rfl)]
  have hf : ((t.inputSchema.properties.getD []).map
      (fieldBlock (t.inputSchema.required.getD []))).map
        (List.filter (fun l => "interface ".data.isPrefixOf l)) =
      (t.inputSchema.properties.getD []).map (fun _ => []) := by
    rw [List.map_map]
    exact List.map_congr_left (fun kv _ => filter_ifc_fieldBlock _ kv)
  rw [hf]
  rw [flatten_map_nil]
  have htl : ["\x7d".data, ([] : List Char),
      ("interface " ++ (toPascalCase t.name ++ "Output") ++ " \x7b").data,
      "  [key: string]: unknown;".data, "\x7d".data].filter
        (fun l => "interface ".data.isPrefixOf l) =
      [("interface " ++ (toPascalCase t.name ++ "Output") ++ " \x7b").data] := by
    rw [List.filter_cons_of_neg (by decide), List.filter_cons_of_neg (by decide),
      List.filter_cons_of_pos (ifcP_of_append (toPascalCase t.name ++ "Output") " \x7b"),
      List.filter_cons_of_neg (by decide), List.filter_cons_of_neg (by decide)]
    rfl
  rw [htl]
  have e1 : ("interface " ++ (toPascalCase t.name ++ "Input") ++ " \x7b").data =
      ("interface " ++ toPascalCase t.name ++ "Input \x7b").data := by
    simp [String.data_append, List.append_assoc,
      show ("Input \x7b" : String).data = "Input".data ++ " \x7b".data from by decide]
  have e2 : ("interface " ++ (toPascalCase t.name ++ "Output") ++ " \x7b").data =
      ("interface " ++ toPascalCase t.name ++ "Output \x7b").data := by
    simp [String.data_append, List.append_assoc,
      show ("Output \x7b" : String).data = "Output".data ++ " \x7b".data from by decide]
  rw [e1, e2]
  rfl

theorem filter_ifc_methodBlock (t : MCPTool) :
    (methodBlock t).filter (fun l => "interface ".data.isPrefixOf l) = [] := by
  unfold methodBlock
  split <;> rfl

theorem filter_ifc_apiBlock (tools : List MCPTool) :
    (apiBlock tools).filter (fun l => "interface ".data.isPrefixOf l) = [] := by
  unfold apiBlock
  rw [List.filter_cons_of_neg (by decide), List.filter_append,
    filter_joinLineBlocks _ (by rfl)]
  have hf : (tools.map methodBlock).map
      (List.filter (fun l => "interface ".data.isPrefixOf l)) =
      tools.map (fun _ => []) := by
    rw [List.map_map]
    exact List.map_congr_left (fun t _ => filter_ifc_methodBlock t)
  rw [hf]
  rw [flatten_map_nil]
  rfl

theorem not_true_of_eq_false {b : Bool} (h : b = false) : ¬ b = true := by
  simp [h]

theorem filter_decl_fieldBlock (required : List String)
    (kv : String × JSONSchemaProperty) :
    (fieldBlock required kv).filter
      (fun l => "declare const mcp".data.isPrefixOf l) = [] := by
  unfold fieldBlock
  split <;> rfl

theorem filter_decl_methodBlock (t : MCPTool) :
    (methodBlock t).filter
      (fun l => "declare const mcp".data.isPrefixOf l) = [] := by
  unfold methodBlock
  split <;> rfl

theorem filter_decl_interfaceBlock (t : MCPTool) :
    (interfaceBlock t).filter
      (fun l => "declare const mcp".data.isPrefixOf l) = [] := by
  unfold interfaceBlock
  rw [List.filter_cons_of_neg (not_true_of_eq_false rfl), List.filter_append,
    filter_joinLineBlocks _ (by rfl)]
  have hf : ((t.inputSchema.properties.getD []).map
      (fieldBlock (t.inputSchema.required.getD []))).map
        (List.filter (fun l => "declare const mcp".data.isPrefixOf l)) =
      (t.inputSchema.properties.getD []).map (fun _ => []) := by
    rw [List.map_map]
    exact List.map_congr_left (fun kv _ => filter_decl_fieldBlock _ kv)
  rw [hf, flatten_map_nil]
  rw [List.filter_cons_of_neg (by decide), List.filter_cons_of_neg (by decide),
    List.filter_cons_of_neg (not_true_of_eq_false rfl),
    List.filter_cons_of_neg (by decide), List.filter_cons_of_neg (by decide)]
  rfl

theorem filter_decl_apiBlock (tools : List MCPTool) :
    (apiBlock tools).filter (fun l => "declare const mcp".data.isPrefixOf l) =
      ["declare const mcp: \x7b".data] := by
  unfold apiBlock
  rw [List.filter_cons_of_pos (by decide), List.filter_append,
    filter_joinLineBlocks _ (by rfl)]
  have hf : (tools.map methodBlock).map
      (List.filter (fun l => "declare const mcp".data.isPrefixOf l)) =
      tools.map (fun _ => []) := by
    rw [List.map_map]
    exact List.map_congr_left (fun t _ => filter_decl_methodBlock t)
  rw [hf, flatten_map_nil]
  rfl

theorem semiGtPad_not_matched (dr rest : List Char)
    (h : ([';', '>'] : List Char).isPrefixOf dr = false) :
    ([';', '>'] : List Char).isPrefixOf (dr ++ ' ' :: rest) = false := by
  match dr with
  | [] => rfl
  | [x] =>
      simp only [List.cons_append, List.nil_append, List.isPrefixOf]
      simp
  | x :: y :: dr' =>
      simp only [List.cons_append, List.isPrefixOf] at h ⊢
      simpa using h

theorem sufP_comment_false (d : String)
    (h : (">;".data.isSuffixOf d.data) = false) :
    (">;".data.isSuffixOf ("   * ".data ++ d.data)) = false := by
  unfold List.isSuffixOf at h ⊢
  rw [List.reverse_append]
  rw [show ((">;" : String).data.reverse) = [';', '>'] from rfl] at h ⊢
  rw [show (("   * " : String).data.reverse) = [' ', '*', ' ', ' ', ' '] from rfl]
  exact semiGtPad_not_matched _ _ h

theorem sufP_method_true (t : MCPTool) :
    (">;".data.isSuffixOf (expectedMethodLine t)) = true := by
  have h1 : ((">;" : String).data) <:+ ("Output>;" : String).data :=
    ⟨"Output".data, by decide⟩
  have h2 : (("Output>;" : String).data) <:+ expectedMethodLine t := by
    unfold expectedMethodLine
    simp only [String.data_append]
    exact List.suffix_append _ _
  exact List.isSuffixOf_iff_suffix.mpr (h1.trans h2)

theorem filter_suf_methodBlock (t : MCPTool) (hsane : toolSane t = true) :
    (methodBlock t).filter (fun l => ">;".data.isSuffixOf l) =
      [expectedMethodLine t] := by
  unfold methodBlock
  by_cases hd : strTruthy t.description = true
  · rw [if_pos hd]
    cases hdesc : t.description with
    | none =>
        rw [hdesc] at hd
        simp [strTruthy] at hd
    | some d =>
        rw [List.filter_cons_of_neg (by decide),
          List.filter_cons_of_neg (by decide),
          List.filter_cons_of_neg (not_true_of_eq_false
            (by
              simp only [Option.getD_some]
              exact sufP_comment_false d (toolSane_desc_suffix hsane hdesc))),
          List.filter_cons_of_neg (by decide),
          List.filter_cons_of_pos (sufP_method_true t)]
        rfl
  · rw [if_neg hd]
    rw [List.filter_cons_of_neg (by decide),
      List.filter_cons_of_pos (sufP_method_true t)]
    rfl

theorem linesOf_generateAPIObject (tools : List MCPTool)
    (h : ∀ t ∈ tools, toolSane t = true) :
    linesOf (generateAPIObject tools) = apiBlock tools := by
  rw [linesOf, generateAPIObject_data,
    splitLinesChars_unlines _ (by simp [apiBlock]) (apiBlock_noNL tools h)]

theorem filter_suf_apiBlock (tools : List MCPTool)
    (h : ∀ t ∈ tools, toolSane t = true) :
    (apiBlock tools).filter (fun l => ">;".data.isSuffixOf l) =
      tools.map expectedMethodLine := by
  unfold apiBlock
  rw [List.filter_cons_of_neg (by decide), List.filter_append,
    filter_joinLineBlocks _ (by rfl)]
  have hf : (tools.map methodBlock).map
      (List.filter (fun l => ">;".data.isSuffixOf l)) =
      tools.map (fun t => [expectedMethodLine t]) := by
    rw [List.map_map]
    exact List.map_congr_left (fun t ht => filter_suf_methodBlock t (h t ht))
  rw [hf, flatten_map_singleton]
  rw [show (["\x7d;".data].filter (fun l => ">;".data.isSuffixOf l)) = [] from
    by decide]
  simp

/-- C7 (amended): for every list of tools whose names, descriptions and
schema property keys contain no newline (and whose descriptions do not end
in `>;`), the generated text has exactly one input and one output interface
header line per tool, named from the PascalCased tool name with
`Input`/`Output` suffixes, plus exactly one `declare const mcp` declaration
line whose object carries exactly one method line per tool; without that
sanitation a description can inject extra declarations. -/
theorem convertToTypeScript_declaration_structure (tools : List MCPTool)
    (h : ∀ t ∈ tools, toolSane t = true) :
    interfaceHeaderLines (convertToTypeScript tools) =
      (tools.map expectedInterfaceHeaders).flatten ∧
    declareMcpLines (convertToTypeScript tools) =
      ["declare const mcp: \x7b".data] ∧
    methodLinesOf (generateAPIObject tools) =
      tools.map expectedMethodLine := by
  refine ⟨?_, ?_, ?_⟩
  · unfold interfaceHeaderLines
    rw [linesOf_convertToTypeScript tools h, outputBlock, List.filter_append,
      filter_joinLineBlocksSep _ (by rfl),
      List.filter_cons_of_neg (not_true_of_eq_false rfl),
      filter_ifc_apiBlock, List.append_nil, List.map_map]
    have hmap : List.map ((List.filter (fun l => "interface ".data.isPrefixOf l)) ∘
        interfaceBlock) tools = List.map expectedInterfaceHeaders tools :=
      List.map_congr_left (fun t _ => filter_ifc_interfaceBlock t)
    rw [hmap]
  · unfold declareMcpLines
    rw [linesOf_convertToTypeScript tools h, outputBlock, List.filter_append,
      filter_joinLineBlocksSep _ (by rfl),
      List.filter_cons_of_neg (not_true_of_eq_false rfl),
      filter_decl_apiBlock, List.map_map]
    have hmap : List.map ((List.filter (fun l =>
        "declare const mcp".data.isPrefixOf l)) ∘ interfaceBlock) tools =
        List.map (fun _ => []) tools :=
      List.map_congr_left (fun t _ => filter_decl_interfaceBlock t)
    rw [hmap, flatten_map_nil, List.nil_append]
  · unfold methodLinesOf
    rw [linesOf_generateAPIObject tools h, filter_suf_apiBlock tools h]

/-- Counterexample to C7 as stated: a tool description containing
`*/` and a newline escapes its doc comment, so the generated text for one
tool carries three `interface` declaration header lines instead of two. -/
theorem convertToTypeScript_counterexample :
    (interfaceHeaderLines (convertToTypeScript [evilTool])).length = 3 ∧
    ¬ (interfaceHeaderLines (convertToTypeScript [evilTool])).length =
      2 * [evilTool].length := by
  refine ⟨by decide, by decide⟩

/-- Witness for C7 (amended) at two concrete sane tools. -/
theorem convertToTypeScript_declaration_witness :
    (∀ t ∈ [sampleToolA, sampleToolB], toolSane t = true) ∧
    (interfaceHeaderLines (convertToTypeScript [sampleToolA, sampleToolB]) =
      ([sampleToolA, sampleToolB].map expectedInterfaceHeaders).flatten ∧
    declareMcpLines (convertToTypeScript [sampleToolA, sampleToolB]) =
      ["declare const mcp: \x7b".data] ∧
    methodLinesOf (generateAPIObject [sampleToolA, sampleToolB]) =
      [sampleToolA, sampleToolB].map expectedMethodLine) :=
  ⟨by decide,
    convertToTypeScript_declaration_structure [sampleToolA, sampleToolB]
      (by decide)⟩

end MCPFlare
